import Mathlib

/-!
Verification development for the `awsl` web-server registry
(`src/core/interface.rs`).  The Rust code is shallowly embedded below:
pure data is translated to Lean structures, the in-place mutation of
`Registry::add_server` becomes explicit state passing, and the two
`while` loops (the worklist loop and the per-pair host loop) are driven
by an explicit step budget ("fuel") whose sufficiency is proved as the
termination theorem.  Backend descriptors (`Arc<dyn BackendDescriptor>`)
are identified by their reference identity, modelled as a natural
number; the registry never inspects a descriptor, it only stores and
compares references.
-/

namespace Awsl

/-- `ServerInterfaceAttribute` from the source: closed set `{Http, Https}`. -/
inductive ServerInterfaceAttribute where
  | http
  | https
deriving DecidableEq, Repr

/-- `ServerInterface`: a (port, attribute) pair compared by value.
The port is a `u16` in the source; the registry only compares ports for
equality, so `Nat` is a faithful carrier. -/
structure ServerInterface where
  port : Nat
  attr : ServerInterfaceAttribute
deriving DecidableEq, Repr

/-- Identity of an `Arc<dyn BackendDescriptor>`: the registry stores and
clones shared references and never looks inside, so a backend is an
opaque identifier. -/
abbrev Backend := Nat

/-- `WebServer` from the source: a server group with its host list,
interface list, path→backend map (`BTreeMap<String, Arc<_>>`, modelled
as an association list with replace-on-insert) and optional default
backend. -/
structure WebServer where
  host : List String
  interface : List ServerInterface
  subservers : List (String × Backend)
  server : Option Backend
deriving DecidableEq, Repr

/-- `WebServerInstance` from the source: one registration request. -/
structure WebServerInstance where
  host : List String
  interface : List ServerInterface
  location : Option String
  descriptor : Backend
deriving DecidableEq, Repr

/-- `OverwritePolicy` from the source. -/
inductive OverwritePolicy where
  | error
  | ignore
  | overwrite
deriving DecidableEq, Repr

/-- The two error kinds `add_server` produces:
`std::io::ErrorKind::InvalidData` (empty host / interface list) and
`std::io::ErrorKind::AlreadyExists` (occupied slot under policy
`Error`), each with its message. -/
inductive AddError where
  | invalidData (msg : String)
  | alreadyExists (msg : String)
deriving DecidableEq, Repr

/-- `Registry` from the source: the ordered group list. -/
structure Registry where
  web : List WebServer
deriving DecidableEq, Repr

/-- `BTreeMap::contains_key` on the association-list model. -/
def mapContainsKey (m : List (String × Backend)) (k : String) : Bool :=
  m.any (fun p => decide (p.1 = k))

/-- `BTreeMap::insert` on the association-list model: replace the
binding of `k` if present, otherwise add one. -/
def mapInsert (k : String) (v : Backend) : List (String × Backend) → List (String × Backend)
  | [] => [(k, v)]
  | p :: rest => if p.1 = k then (k, v) :: rest else p :: mapInsert k v rest

/-- `BTreeMap::get` on the association-list model. -/
def mapLookup (k : String) : List (String × Backend) → Option Backend
  | [] => none
  | p :: rest => if p.1 = k then some p.2 else mapLookup k rest

/-- Remove the first occurrence of `h` (the `'findhost` search followed
by `hosts.remove(id)` in the source); `none` when `h` does not occur. -/
def removeFirst (h : String) : List String → Option (List String)
  | [] => none
  | x :: rest =>
    if x = h then some rest
    else
      match removeFirst h rest with
      | some r => some (x :: r)
      | none => none

/-- The known/other host classification of `add_server` lines 196-210:
walk the group's host list; each group host found in the pair's host
list is consumed from it (`known`), the others are `other`.  Returns
`(knownHosts, otherHosts, remainingPairHosts)`. -/
def splitHosts : List String → List String → List String × List String × List String
  | [], hosts => ([], [], hosts)
  | h :: gh, hosts =>
    match removeFirst h hosts with
    | some hosts1 =>
      let r := splitHosts gh hosts1
      (h :: r.1, r.2.1, r.2.2)
    | none =>
      let r := splitHosts gh hosts
      (r.1, h :: r.2.1, r.2.2)

/-- Result of applying the overwrite policy to one group. -/
inductive SlotResult where
  | ok (g : WebServer)
  | fail (e : AddError) (g : WebServer)
deriving DecidableEq, Repr

/-- The `execute_overwrite_policy!` expansion at lines 272-280: write
the request's backend at the location slot (or the default slot) of the
precisely matched group, subject to the policy when the slot is
occupied. -/
def applySlot (policy : OverwritePolicy) (loc : Option String) (desc : Backend)
    (g : WebServer) : SlotResult :=
  match loc with
  | some l =>
    if mapContainsKey g.subservers l then
      match policy with
      | .error => .fail (.alreadyExists "Cannot overwrite existed server") g
      | .ignore => .ok g
      | .overwrite => .ok { g with subservers := mapInsert l desc g.subservers }
    else .ok { g with subservers := mapInsert l desc g.subservers }
  | none =>
    if g.server.isSome then
      match policy with
      | .error => .fail (.alreadyExists "Cannot overwrite existed server") g
      | .ignore => .ok g
      | .overwrite => .ok { g with server := some desc }
    else .ok { g with server := some desc }

/-- The occupancy check of the target slot (`subservers.contains_key`
for a path, `server.is_some()` for the default slot). -/
def slotOccupied (loc : Option String) (g : WebServer) : Bool :=
  match loc with
  | some l => mapContainsKey g.subservers l
  | none => g.server.isSome

/-- The unconditional slot write: insert at the path, or set the
default backend. -/
def writeSlot (loc : Option String) (desc : Backend) (g : WebServer) : WebServer :=
  match loc with
  | some l => { g with subservers := mapInsert l desc g.subservers }
  | none => { g with server := some desc }

/-- The host split of `add_server` lines 239-248: when `other` is
non-empty, buffer a clone carrying the other hosts and narrow the group
to the known hosts in place. -/
def hostSplitStep (g : WebServer) (known other : List String)
    (buf : List WebServer) : WebServer × List WebServer :=
  if other.isEmpty then (g, buf)
  else ({ g with host := known }, buf ++ [{ g with host := other }])

/-- The interface split of `add_server` lines 253-262: when `other` is
non-empty, buffer a clone carrying the other interfaces and narrow the
group to the known interfaces in place. -/
def ifaceSplitStep (g : WebServer) (known other : List ServerInterface)
    (buf : List WebServer) : WebServer × List WebServer :=
  if other.isEmpty then (g, buf)
  else ({ g with interface := known }, buf ++ [{ g with interface := other }])

/-- Result of the `'host_search_loop` scan over `self.web` for one
current host.  `ok` carries the scanned (possibly narrowed) groups, the
pair's remaining host list, the working interface set and the buffer of
split-off clones (`new_hosts`); `fail` carries the registry as left
behind by the early `return Err` (clone buffer dropped). -/
inductive ScanResult where
  | ok (web : List WebServer) (hosts : List String)
       (ifaces : List ServerInterface) (buf : List WebServer)
  | fail (e : AddError) (web : List WebServer)
deriving DecidableEq, Repr

/-- The `'host_search_loop` of `add_server` (lines 183-281): scan the
groups in registry order for the current `host`, consuming matched
hosts from the pair, splitting partially matched groups and applying
the slot write to each precisely matched group. -/
def scanGroups (policy : OverwritePolicy) (loc : Option String) (desc : Backend)
    (host : String) :
    List WebServer → List String → List ServerInterface → List WebServer → ScanResult
  | [], hosts, ifaces, buf => .ok [] hosts ifaces buf
  | g :: rest, hosts, ifaces, buf =>
    if host ∈ g.host then
      let s := splitHosts g.host hosts
      let knownHosts := s.1
      let otherHosts := s.2.1
      let hosts1 := s.2.2
      let knownIfaces := ifaces.filter (fun v => decide (v ∈ g.interface))
      let unknownIfaces := ifaces.filter (fun v => !decide (v ∈ g.interface))
      let otherIfaces := g.interface.filter (fun v => !decide (v ∈ knownIfaces))
      if knownHosts.isEmpty || knownIfaces.isEmpty then
        -- not the current node: restore the consumed hosts at the tail
        match scanGroups policy loc desc host rest (hosts1 ++ knownHosts) ifaces buf with
        | .ok web1 h1 i1 b1 => .ok (g :: web1) h1 i1 b1
        | .fail e web1 => .fail e (g :: web1)
      else
        let p1 := hostSplitStep g knownHosts otherHosts buf
        let p2 := ifaceSplitStep p1.1 knownIfaces otherIfaces p1.2
        let ifaces1 := if unknownIfaces.isEmpty then ifaces else unknownIfaces
        match applySlot policy loc desc p2.1 with
        | .fail e g1 => .fail e (g1 :: rest)
        | .ok g1 =>
          match scanGroups policy loc desc host rest hosts1 ifaces1 p2.2 with
          | .ok web1 h1 i1 b1 => .ok (g1 :: web1) h1 i1 b1
          | .fail e web1 => .fail e (g1 :: web1)
    else
      match scanGroups policy loc desc host rest hosts ifaces buf with
      | .ok web1 h1 i1 b1 => .ok (g :: web1) h1 i1 b1
      | .fail e web1 => .fail e (g :: web1)

/-- A worklist pair: remaining host list and interface set. -/
abbrev Pair := List String × List ServerInterface

/-- Result of the `while i < hosts.len()` loop for one pair. -/
inductive HostResult where
  | ok (web : List WebServer) (hosts : List String) (pairsNew : List Pair)
  | fail (e : AddError) (web : List WebServer)
  | out
deriving DecidableEq, Repr

/-- The `while i < hosts.len()` loop of `add_server` (lines 177-294):
process the pair's hosts left to right; after each scan append the
clone buffer to the registry and either push a `([host], remaining
interfaces)` work item (when the working interface set shrank and is
still non-empty) or advance `i`.  `fuel` bounds the number of
iterations; its sufficiency is proved below. -/
def hostLoop (policy : OverwritePolicy) (loc : Option String) (desc : Backend)
    (ifacesAll : List ServerInterface) :
    Nat → Nat → List String → List WebServer → List Pair → HostResult
  | fuel, i, hosts, web, pairsNew =>
    if i < hosts.length then
      match fuel with
      | 0 => .out
      | fuel + 1 =>
        let host := hosts.getD i ""
        match scanGroups policy loc desc host web hosts ifacesAll [] with
        | .fail e web1 => .fail e web1
        | .ok web1 hosts1 ifaces1 buf =>
          let web2 := web1 ++ buf
          if 0 < ifaces1.length ∧ ifaces1.length ≠ ifacesAll.length then
            hostLoop policy loc desc ifacesAll fuel i hosts1 web2
              (pairsNew ++ [([host], ifaces1)])
          else
            hostLoop policy loc desc ifacesAll fuel (i + 1) hosts1 web2 pairsNew
    else .ok web hosts pairsNew

/-- Result of a whole `add_server` call.  `fail` carries the registry
as mutated so far (the source returns `Err` without rolling back). -/
inductive AddResult where
  | ok (web : List WebServer)
  | fail (e : AddError) (web : List WebServer)
  | out
deriving DecidableEq, Repr

/-- The `while pairs.len() > 0` worklist loop of `add_server` (lines
171-315): process the front pair with `hostLoop` (per-pair host-loop
fuel is the pair's host count), create a new group for hosts matched by
no existing group, then append the spawned pairs and drop the processed
one. -/
def pairsLoop (policy : OverwritePolicy) (loc : Option String) (desc : Backend) :
    Nat → List Pair → List WebServer → AddResult
  | _, [], web => .ok web
  | 0, _ :: _, _ => .out
  | fuel + 1, (hosts, ifacesAll) :: rest, web =>
    match hostLoop policy loc desc ifacesAll hosts.length 0 hosts web [] with
    | .out => .out
    | .fail e web1 => .fail e web1
    | .ok web1 hosts1 pairsNew =>
      let web2 :=
        if hosts1.isEmpty then web1
        else
          web1 ++ [match loc with
            | some l =>
              { host := hosts1, interface := ifacesAll,
                subservers := mapInsert l desc [], server := none }
            | none =>
              { host := hosts1, interface := ifacesAll,
                subservers := [], server := some desc }]
      pairsLoop policy loc desc fuel (rest ++ pairsNew) web2

/-- `Registry::add_server`: validate the request, seed the worklist
with `(inst.host, inst.interface)` and run the partitioning loop.  The
worklist fuel `|hosts| * |interfaces| + 1` dominates the worklist
potential (proved in the termination theorem: the result is never
`.out`). -/
def Registry.add_server (reg : Registry) (inst : WebServerInstance)
    (policy : OverwritePolicy) : AddResult :=
  if inst.host.length = 0 then .fail (.invalidData "host is empty list") reg.web
  else if inst.interface.length = 0 then
    .fail (.invalidData "interface is empty list") reg.web
  else
    pairsLoop policy inst.location inst.descriptor
      (inst.host.length * inst.interface.length + 1)
      [(inst.host, inst.interface)] reg.web

/-- `Registry::clear`. -/
def Registry.clear (_reg : Registry) : Registry := ⟨[]⟩

/-- `Registry::get_web_servers`. -/
def Registry.get_web_servers (reg : Registry) : List WebServer := reg.web

/-- `Registry::default`. -/
def Registry.default : Registry := ⟨[]⟩

/-- A host name occurs somewhere in the registry's groups. -/
def hostIn (web : List WebServer) (x : String) : Prop :=
  ∃ g ∈ web, x ∈ g.host

/-- An interface occurs somewhere in the registry's groups. -/
def ifaceIn (web : List WebServer) (v : ServerInterface) : Prop :=
  ∃ g ∈ web, v ∈ g.interface

instance (web : List WebServer) (x : String) : Decidable (hostIn web x) := by
  unfold hostIn; infer_instance

instance (web : List WebServer) (v : ServerInterface) : Decidable (ifaceIn web v) := by
  unfold ifaceIn; infer_instance

/-- Every group in the list has non-empty host and interface lists. -/
def GroupsOk (web : List WebServer) : Prop :=
  ∀ g ∈ web, g.host ≠ [] ∧ g.interface ≠ []

/-- Every worklist pair has a non-empty host list and a non-empty
interface list. -/
def PairsOk (ps : List Pair) : Prop :=
  ∀ p ∈ ps, p.1 ≠ [] ∧ p.2 ≠ []

/-- Non-emptiness carried through a scan result (both the registry and
the clone buffer). -/
def ScanNonempty (r : ScanResult) : Prop :=
  match r with
  | .ok web1 _ _ buf1 => GroupsOk web1 ∧ GroupsOk buf1
  | .fail _ web1 => GroupsOk web1

/-- Non-emptiness carried through a host-loop result (the registry and
the spawned worklist pairs). -/
def HostNonempty (r : HostResult) : Prop :=
  match r with
  | .ok web1 _ pairsNew => GroupsOk web1 ∧ PairsOk pairsNew
  | .fail _ web1 => GroupsOk web1
  | .out => True

/-- Non-emptiness carried through an `add_server` result. -/
def AddNonempty (r : AddResult) : Prop :=
  match r with
  | .ok web1 => GroupsOk web1
  | .fail _ web1 => GroupsOk web1
  | .out => True

/-- Registry states reachable from the empty registry by `add_server`
calls (successful or failing, any request and policy) and `clear`
calls. -/
inductive Reach : List WebServer → Prop where
  | empty : Reach []
  | addOk (w : List WebServer) (inst : WebServerInstance) (policy : OverwritePolicy)
      (w1 : List WebServer) : Reach w →
      Registry.add_server ⟨w⟩ inst policy = .ok w1 → Reach w1
  | addFail (w : List WebServer) (inst : WebServerInstance) (policy : OverwritePolicy)
      (e : AddError) (w1 : List WebServer) : Reach w →
      Registry.add_server ⟨w⟩ inst policy = .fail e w1 → Reach w1
  | clear (w : List WebServer) : Reach w → Reach (Registry.clear ⟨w⟩).web

/-- The frame relation between a group before an add with slot `loc`
and a group descended from it after the add: every path entry other
than the target path is unchanged, and for a path registration the
default backend is unchanged; for a default-slot registration the whole
path table is unchanged. -/
def sameExceptSlot (loc : Option String) (g0 g1 : WebServer) : Prop :=
  match loc with
  | some p =>
    (∀ q, q ≠ p → mapLookup q g1.subservers = mapLookup q g0.subservers) ∧
      g1.server = g0.server
  | none => g1.subservers = g0.subservers

/-- The frame condition for a group freshly created by an add with slot
`loc`: it holds no path entry other than the target path, and for a
path registration no default backend. -/
def freshExceptSlot (loc : Option String) (g1 : WebServer) : Prop :=
  match loc with
  | some p => (∀ q, q ≠ p → mapLookup q g1.subservers = none) ∧ g1.server = none
  | none => g1.subservers = []

/-- Frame property between two registry states: every group of the
second either descends from a group of the first with only the target
slot changed, or is fresh. -/
def frameOk (loc : Option String) (web0 web1 : List WebServer) : Prop :=
  ∀ g1 ∈ web1, (∃ g0 ∈ web0, sameExceptSlot loc g0 g1) ∨ freshExceptSlot loc g1

/-- Frame carried through a scan result relative to the starting
registry `web0` (the scanned groups and the clone buffer). -/
def ScanFrame (loc : Option String) (web0 : List WebServer) (r : ScanResult) : Prop :=
  match r with
  | .ok web1 _ _ buf1 => frameOk loc web0 (web1 ++ buf1)
  | .fail _ web1 => frameOk loc web0 web1

/-- Frame carried through a host-loop result. -/
def HostFrame (loc : Option String) (web0 : List WebServer) (r : HostResult) : Prop :=
  match r with
  | .ok web1 _ _ => frameOk loc web0 web1
  | .fail _ web1 => frameOk loc web0 web1
  | .out => True

/-- Frame carried through an `add_server` result. -/
def AddFrame (loc : Option String) (web0 : List WebServer) (r : AddResult) : Prop :=
  match r with
  | .ok web1 => frameOk loc web0 web1
  | .fail _ web1 => frameOk loc web0 web1
  | .out => True

/-- A host name occurs in some worklist pair. -/
def pairsHostIn (ps : List Pair) (x : String) : Prop :=
  ∃ p ∈ ps, x ∈ p.1

/-- An interface occurs in some worklist pair. -/
def pairsIfaceIn (ps : List Pair) (v : ServerInterface) : Prop :=
  ∃ p ∈ ps, v ∈ p.2

/-- The worklist potential used for termination: each pair contributes
its host count times its interface count, plus one. -/
def pairCost (p : Pair) : Nat := p.1.length * p.2.length + 1

/-- Total worklist potential. -/
def pairsPotential (ps : List Pair) : Nat := (ps.map pairCost).sum

end Awsl

namespace Awsl

/-! ### Basic lemmas about the map and list helpers -/

theorem mapLookup_mapInsert_ne {q l : String} (v : Backend) (m : List (String × Backend))
    (h : q ≠ l) : mapLookup q (mapInsert l v m) = mapLookup q m := by
  induction m with
  | nil => simp [mapInsert, mapLookup, Ne.symm h]
  | cons p rest ih =>
    simp only [mapInsert]
    by_cases hp : p.1 = l
    · simp [mapLookup, hp, Ne.symm h]
    · simp only [if_neg hp, mapLookup, ih]
  
theorem removeFirst_none_of_not_mem {h : String} {l : List String} (hm : h ∉ l) :
    removeFirst h l = none := by
  induction l with
  | nil => rfl
  | cons x rest ih =>
    simp only [List.mem_cons, not_or] at hm
    have hx : ¬ x = h := fun hx => hm.1 hx.symm
    simp only [removeFirst, if_neg hx, ih hm.2]

theorem removeFirst_some_of_mem {h : String} {l : List String} (hm : h ∈ l) :
    ∃ r, removeFirst h l = some r := by
  induction l with
  | nil => cases hm
  | cons x rest ih =>
    by_cases hx : x = h
    · exact ⟨rest, by simp [removeFirst, hx]⟩
    · have hm2 : h ∈ rest := by
        rcases List.mem_cons.mp hm with h1 | h1
        · exact absurd h1.symm hx
        · exact h1
      rcases ih hm2 with ⟨r, hr⟩
      exact ⟨x :: r, by simp [removeFirst, hx, hr]⟩

theorem removeFirst_length {h : String} {l r : List String}
    (hr : removeFirst h l = some r) : l.length = r.length + 1 := by
  induction l generalizing r with
  | nil => cases hr
  | cons x rest ih =>
    simp only [removeFirst] at hr
    by_cases hx : x = h
    · rw [if_pos hx] at hr; cases hr; rfl
    · rw [if_neg hx] at hr
      cases hrec : removeFirst h rest with
      | none => rw [hrec] at hr; cases hr
      | some r2 =>
        rw [hrec] at hr; cases hr
        simp [ih hrec]

theorem removeFirst_mem_iff {h : String} {l r : List String}
    (hr : removeFirst h l = some r) : ∀ x, x ∈ l ↔ x = h ∨ x ∈ r := by
  induction l generalizing r with
  | nil => cases hr
  | cons a rest ih =>
    intro x
    simp only [removeFirst] at hr
    by_cases ha : a = h
    · rw [if_pos ha] at hr; cases hr
      subst ha; simp [List.mem_cons]
    · rw [if_neg ha] at hr
      cases hrec : removeFirst h rest with
      | none => rw [hrec] at hr; cases hr
      | some r2 =>
        rw [hrec] at hr; cases hr
        simp only [List.mem_cons, ih hrec x]; tauto

theorem removeFirst_subset {h : String} {l r : List String}
    (hr : removeFirst h l = some r) : ∀ x ∈ r, x ∈ l := by
  intro x hx; exact (removeFirst_mem_iff hr x).mpr (Or.inr hx)

theorem removeFirst_mem_self {h : String} {l r : List String}
    (hr : removeFirst h l = some r) : h ∈ l :=
  (removeFirst_mem_iff hr h).mpr (Or.inl rfl)

theorem removeFirst_eq_filter {h : String} {l : List String} (hl : l.Nodup) (hm : h ∈ l) :
    removeFirst h l = some (l.filter (fun x => !decide (x = h))) := by
  induction l with
  | nil => cases hm
  | cons a rest ih =>
    rcases List.nodup_cons.mp hl with ⟨hna, hnr⟩
    by_cases ha : a = h
    · subst ha
      have : rest.filter (fun x => !decide (x = a)) = rest :=
        List.filter_eq_self.mpr (fun x hx => by
          simp only [Bool.not_eq_true', decide_eq_false_iff_not]
          exact fun hxa => hna (hxa ▸ hx))
      simp [removeFirst, this]
    · have hm2 : h ∈ rest := by
        rcases List.mem_cons.mp hm with h1 | h1
        · exact absurd h1.symm ha
        · exact h1
      simp [removeFirst, ha, ih hnr hm2, List.filter_cons]

end Awsl

namespace Awsl

theorem splitHosts_self (l : List String) : splitHosts l l = (l, [], []) := by
  induction l with
  | nil => rfl
  | cons h t ih => simp [splitHosts, removeFirst, ih]

theorem splitHosts_gh_mem (gh hs : List String) (x : String) :
    x ∈ gh ↔ x ∈ (splitHosts gh hs).1 ∨ x ∈ (splitHosts gh hs).2.1 := by
  induction gh generalizing hs with
  | nil => simp [splitHosts]
  | cons h t ih =>
    simp only [splitHosts]
    cases hrec : removeFirst h hs with
    | some r =>
      simp only [List.mem_cons, ih r]
      tauto
    | none =>
      simp only [List.mem_cons, ih hs]
      tauto

theorem splitHosts_hs_mem (gh hs : List String) (x : String) :
    x ∈ hs ↔ x ∈ (splitHosts gh hs).1 ∨ x ∈ (splitHosts gh hs).2.2 := by
  induction gh generalizing hs with
  | nil => simp [splitHosts]
  | cons h t ih =>
    simp only [splitHosts]
    cases hrec : removeFirst h hs with
    | some r =>
      simp only [List.mem_cons]
      rw [removeFirst_mem_iff hrec x, ih r]
      tauto
    | none =>
      exact ih hs

theorem splitHosts_length (gh hs : List String) :
    (splitHosts gh hs).1.length + (splitHosts gh hs).2.2.length = hs.length := by
  induction gh generalizing hs with
  | nil => simp [splitHosts]
  | cons h t ih =>
    simp only [splitHosts]
    cases hrec : removeFirst h hs with
    | some r =>
      have h1 := removeFirst_length hrec
      have h2 := ih r
      simp only [List.length_cons]
      omega
    | none => exact ih hs

theorem splitHosts_eq_filter {gh hs : List String} (hgh : gh.Nodup) (hhs : hs.Nodup) :
    splitHosts gh hs =
      (gh.filter (fun x => decide (x ∈ hs)),
       gh.filter (fun x => !decide (x ∈ hs)),
       hs.filter (fun x => !decide (x ∈ gh))) := by
  induction gh generalizing hs with
  | nil =>
    simp only [splitHosts, List.filter_nil]
    have : hs.filter (fun x => !decide (x ∈ ([] : List String))) = hs :=
      List.filter_eq_self.mpr (fun a _ => by simp)
    rw [this]
  | cons h t ih =>
    rcases List.nodup_cons.mp hgh with ⟨hht, hnt⟩
    by_cases hm : h ∈ hs
    · have hrf := removeFirst_eq_filter hhs hm
      have hrnd : (hs.filter (fun x => !decide (x = h))).Nodup := hhs.filter _
      simp only [splitHosts, hrf, ih hnt hrnd]
      refine congrArg₂ _ ?_ (congrArg₂ _ ?_ ?_)
      · rw [List.filter_cons, if_pos (by simpa using hm)]
        refine congrArg _ (List.filter_congr fun x hx => ?_)
        have hxh : x ≠ h := fun he => hht (he ▸ hx)
        simp [List.mem_filter, hxh]
      · rw [List.filter_cons, if_neg (by simpa using hm)]
        refine List.filter_congr fun x hx => ?_
        have hxh : x ≠ h := fun he => hht (he ▸ hx)
        simp [List.mem_filter, hxh]
      · rw [List.filter_filter]
        refine List.filter_congr fun x hx => ?_
        by_cases h1 : x = h <;> by_cases h2 : x ∈ t <;> simp [List.mem_cons, h1, h2]
    · have hrf := removeFirst_none_of_not_mem hm
      simp only [splitHosts, hrf, ih hnt hhs]
      refine congrArg₂ _ ?_ (congrArg₂ _ ?_ ?_)
      · rw [List.filter_cons, if_neg (by simpa using hm)]
      · rw [List.filter_cons, if_pos (by simpa using hm)]
      · refine List.filter_congr fun x hx => ?_
        have hxh : x ≠ h := fun he => hm (he ▸ hx)
        simp [List.mem_cons, hxh]

end Awsl

namespace Awsl

/-! ### Lemmas about the slot application -/

theorem applySlot_occupied_error {loc : Option String} {g : WebServer}
    (h : slotOccupied loc g = true) (desc : Backend) :
    applySlot .error loc desc g = .fail (.alreadyExists "Cannot overwrite existed server") g := by
  cases loc <;> simp_all [applySlot, slotOccupied]

theorem applySlot_occupied_ignore {loc : Option String} {g : WebServer}
    (h : slotOccupied loc g = true) (desc : Backend) :
    applySlot .ignore loc desc g = .ok g := by
  cases loc <;> simp_all [applySlot, slotOccupied]

theorem applySlot_occupied_overwrite {loc : Option String} {g : WebServer}
    (h : slotOccupied loc g = true) (desc : Backend) :
    applySlot .overwrite loc desc g = .ok (writeSlot loc desc g) := by
  cases loc <;> simp_all [applySlot, slotOccupied, writeSlot]

theorem applySlot_free {loc : Option String} {g : WebServer}
    (h : slotOccupied loc g = false) (policy : OverwritePolicy) (desc : Backend) :
    applySlot policy loc desc g = .ok (writeSlot loc desc g) := by
  cases loc <;> simp_all [applySlot, slotOccupied, writeSlot]

theorem writeSlot_host (loc : Option String) (desc : Backend) (g : WebServer) :
    (writeSlot loc desc g).host = g.host := by
  cases loc <;> rfl

theorem writeSlot_interface (loc : Option String) (desc : Backend) (g : WebServer) :
    (writeSlot loc desc g).interface = g.interface := by
  cases loc <;> rfl

theorem slotOccupied_host_update (loc : Option String) (g : WebServer) (h : List String) :
    slotOccupied loc { g with host := h } = slotOccupied loc g := by
  cases loc <;> rfl

theorem slotOccupied_interface_update (loc : Option String) (g : WebServer)
    (i : List ServerInterface) :
    slotOccupied loc { g with interface := i } = slotOccupied loc g := by
  cases loc <;> rfl

theorem applySlot_ok_cases {policy : OverwritePolicy} {loc : Option String}
    {desc : Backend} {g g1 : WebServer} (h : applySlot policy loc desc g = .ok g1) :
    (slotOccupied loc g = true ∧ policy = .ignore ∧ g1 = g) ∨
      g1 = writeSlot loc desc g := by
  cases hocc : slotOccupied loc g with
  | true =>
    cases policy with
    | error => rw [applySlot_occupied_error hocc] at h; cases h
    | ignore => rw [applySlot_occupied_ignore hocc] at h; cases h; exact Or.inl ⟨rfl, rfl, rfl⟩
    | overwrite => rw [applySlot_occupied_overwrite hocc] at h; cases h; exact Or.inr rfl
  | false => rw [applySlot_free hocc] at h; cases h; exact Or.inr rfl

theorem applySlot_fail_cases {policy : OverwritePolicy} {loc : Option String}
    {desc : Backend} {g g1 : WebServer} {e : AddError}
    (h : applySlot policy loc desc g = .fail e g1) :
    slotOccupied loc g = true ∧ policy = .error ∧
      e = .alreadyExists "Cannot overwrite existed server" ∧ g1 = g := by
  cases hocc : slotOccupied loc g with
  | true =>
    cases policy with
    | error =>
      rw [applySlot_occupied_error hocc] at h
      cases h
      exact ⟨rfl, rfl, rfl, rfl⟩
    | ignore => rw [applySlot_occupied_ignore hocc] at h; cases h
    | overwrite => rw [applySlot_occupied_overwrite hocc] at h; cases h
  | false => rw [applySlot_free hocc] at h; cases h

theorem applySlot_ok_host {policy : OverwritePolicy} {loc : Option String}
    {desc : Backend} {g g1 : WebServer} (h : applySlot policy loc desc g = .ok g1) :
    g1.host = g.host := by
  rcases applySlot_ok_cases h with ⟨_, _, rfl⟩ | rfl
  · rfl
  · exact writeSlot_host loc desc g

theorem applySlot_ok_interface {policy : OverwritePolicy} {loc : Option String}
    {desc : Backend} {g g1 : WebServer} (h : applySlot policy loc desc g = .ok g1) :
    g1.interface = g.interface := by
  rcases applySlot_ok_cases h with ⟨_, _, rfl⟩ | rfl
  · rfl
  · exact writeSlot_interface loc desc g

end Awsl

namespace Awsl

/-! ### Claim theorems on concrete inputs -/

/-- Claim C6: for every registry state, every policy, and every request
whose host set is empty or whose interface set is empty, `add_server`
fails with the invalid-input error and the registry afterwards is
exactly the registry before. -/
theorem C6_empty_input_rejection (reg : Registry) (inst : WebServerInstance)
    (policy : OverwritePolicy) (h : inst.host = [] ∨ inst.interface = []) :
    ∃ msg, reg.add_server inst policy = .fail (.invalidData msg) reg.web := by
  rcases h with h | h
  · exact ⟨"host is empty list", by simp [Registry.add_server, h]⟩
  · by_cases hh : inst.host.length = 0
    · exact ⟨"host is empty list", by simp [Registry.add_server, hh]⟩
    · exact ⟨"interface is empty list", by simp [Registry.add_server, hh, h]⟩

/-- Witness for C6 at a concrete input: an empty host list is rejected
without mutation. -/
theorem C6_empty_input_rejection_witness :
    ∃ msg, Registry.add_server ⟨[]⟩ ⟨[], [⟨80, .http⟩], none, 1⟩ .error
      = .fail (.invalidData msg) [] :=
  C6_empty_input_rejection ⟨[]⟩ ⟨[], [⟨80, .http⟩], none, 1⟩ .error (Or.inl rfl)

/-- Claim C7: non-atomic failure under the Error policy.  On the
registry holding the single group {hosts = [host1, host2],
interfaces = [Http:80], default backend 1}, registering host1 at the
already occupied default slot fails with AlreadyExists, yet the host
split performed before the conflict is kept: the matched group was
narrowed to host1 in place and the clone holding host2 was dropped with
the buffer, so the registry after the call differs from the registry
before it. -/
theorem C7_non_atomic_failure :
    Registry.add_server ⟨[⟨["host1", "host2"], [⟨80, .http⟩], [], some 1⟩]⟩
        ⟨["host1"], [⟨80, .http⟩], none, 2⟩ .error
      = .fail (.alreadyExists "Cannot overwrite existed server")
          [⟨["host1"], [⟨80, .http⟩], [], some 1⟩] ∧
    [WebServer.mk ["host1"] [⟨80, .http⟩] [] (some 1)]
      ≠ [⟨["host1", "host2"], [⟨80, .http⟩], [], some 1⟩] :=
  ⟨by decide, by decide⟩

/-- Claim C1 fails on the code: after three successful `add_server`
calls from the empty registry, the host "y" and the interface Http:80
are covered by two distinct groups that both hold a default-slot
backend.  In the third call the restore path (`hosts.remove` during the
known-host search followed by `hosts.extend` appending the restored
hosts at the tail) reorders the pair's host list across iterations of
the index-driven host loop, so "y" is never processed as a current
host; the leftover hosts ["y", "a", "b"] then found a fresh group even
though ("y", Http:80, default) is already covered. -/
theorem C1_coverage_uniqueness_violation :
    Registry.add_server ⟨[]⟩ ⟨["y"], [⟨80, .http⟩], none, 7⟩ .error
      = .ok [⟨["y"], [⟨80, .http⟩], [], some 7⟩] ∧
    Registry.add_server ⟨[⟨["y"], [⟨80, .http⟩], [], some 7⟩]⟩
        ⟨["a", "b"], [⟨99, .http⟩], none, 7⟩ .error
      = .ok [⟨["y"], [⟨80, .http⟩], [], some 7⟩,
             ⟨["a", "b"], [⟨99, .http⟩], [], some 7⟩] ∧
    Registry.add_server ⟨[⟨["y"], [⟨80, .http⟩], [], some 7⟩,
                          ⟨["a", "b"], [⟨99, .http⟩], [], some 7⟩]⟩
        ⟨["a", "b", "y"], [⟨80, .http⟩], none, 5⟩ .error
      = .ok [⟨["y"], [⟨80, .http⟩], [], some 7⟩,
             ⟨["a", "b"], [⟨99, .http⟩], [], some 7⟩,
             ⟨["y", "a", "b"], [⟨80, .http⟩], [], some 5⟩] ∧
    (∃ g1 ∈ [WebServer.mk ["y"] [⟨80, .http⟩] [] (some 7),
             ⟨["a", "b"], [⟨99, .http⟩], [], some 7⟩,
             ⟨["y", "a", "b"], [⟨80, .http⟩], [], some 5⟩],
     ∃ g2 ∈ [WebServer.mk ["y"] [⟨80, .http⟩] [] (some 7),
             ⟨["a", "b"], [⟨99, .http⟩], [], some 7⟩,
             ⟨["y", "a", "b"], [⟨80, .http⟩], [], some 5⟩],
      g1 ≠ g2 ∧ "y" ∈ g1.host ∧ "y" ∈ g2.host ∧
      ServerInterface.mk 80 .http ∈ g1.interface ∧
      ServerInterface.mk 80 .http ∈ g2.interface ∧
      slotOccupied none g1 = true ∧ slotOccupied none g2 = true) := by
  refine ⟨by decide, by decide, by decide, ?_⟩
  decide

/-- Counterexample to claim C2 as stated ("for any add call"): the call
with a non-empty host set and an empty interface set fails and leaves
the registry empty, yet the union of hosts before the call plus the
request's hosts contains "h", so the two sides differ. -/
theorem C2_union_preservation_counterexample :
    Registry.add_server ⟨[]⟩ ⟨["h"], [], none, 1⟩ .error
      = .fail (.invalidData "interface is empty list") [] ∧
    ¬ (hostIn [] "h" ↔ (hostIn [] "h" ∨ "h" ∈ (["h"] : List String))) :=
  ⟨by decide, by decide⟩

/-- Counterexample to claim C3 as stated: under policy Ignore with the
target path slot already occupied, the partial host overlap produces
the two groups, but the intersection group keeps the previously stored
backend 1 at "/t" instead of carrying the new slot assignment 2. -/
theorem C3_partial_host_overlap_counterexample :
    Registry.add_server ⟨[⟨["host1", "host2"], [⟨80, .http⟩], [("/t", 1)], none⟩]⟩
        ⟨["host1"], [⟨80, .http⟩], some "/t", 2⟩ .ignore
      = .ok [⟨["host1"], [⟨80, .http⟩], [("/t", 1)], none⟩,
             ⟨["host2"], [⟨80, .http⟩], [("/t", 1)], none⟩] ∧
    mapLookup "/t" [("/t", 1)] ≠ some 2 :=
  ⟨by decide, by decide⟩

/-- Counterexample to claim C4 as stated: under policy Ignore with the
target path slot already occupied, the partial interface overlap
produces the two groups split over interfaces, but the group keeping
the intersecting interfaces retains the old backend 1 at "/t" instead
of carrying the new mutation 2. -/
theorem C4_partial_interface_overlap_counterexample :
    Registry.add_server ⟨[⟨["host1"], [⟨80, .http⟩, ⟨81, .http⟩], [("/t", 1)], none⟩]⟩
        ⟨["host1"], [⟨80, .http⟩], some "/t", 2⟩ .ignore
      = .ok [⟨["host1"], [⟨80, .http⟩], [("/t", 1)], none⟩,
             ⟨["host1"], [⟨81, .http⟩], [("/t", 1)], none⟩] ∧
    mapLookup "/t" [("/t", 1)] ≠ some 2 :=
  ⟨by decide, by decide⟩

end Awsl

namespace Awsl

/-! ### Generic filter helpers -/

theorem filter_mem_self {α : Type} [DecidableEq α] {l L : List α} (h : ∀ x ∈ l, x ∈ L) :
    l.filter (fun v => decide (v ∈ L)) = l :=
  List.filter_eq_self.mpr (fun a ha => by simpa using h a ha)

theorem filter_not_mem_nil {α : Type} [DecidableEq α] {l L : List α} (h : ∀ x ∈ l, x ∈ L) :
    l.filter (fun v => !decide (v ∈ L)) = [] := by
  rw [List.filter_eq_nil_iff]
  intro a ha
  simp [h a ha]

/-- The scan of the single-group registry `[g]` when the group is a
precise match for the request: every pair host is consumed, the
interface sets coincide, no split happens, and the slot write is
applied to `g` itself. -/
theorem scanGroups_exact (policy : OverwritePolicy) (loc : Option String)
    (desc : Backend) (g : WebServer) (hosts : List String)
    (ifaces : List ServerInterface) (hhost : g.host = hosts)
    (hiface : g.interface = ifaces) (hhne : hosts ≠ []) (hine : ifaces ≠ []) :
    scanGroups policy loc desc (hosts.getD 0 "") [g] hosts ifaces [] =
      match applySlot policy loc desc g with
      | .ok g1 => .ok [g1] [] ifaces []
      | .fail e g1 => .fail e [g1] := by
  subst hiface
  obtain ⟨a, t, rfl⟩ : ∃ a t, hosts = a :: t := by
    cases hosts with
    | nil => exact absurd rfl hhne
    | cons a t => exact ⟨a, t, rfl⟩
  have hmem : (a :: t).getD 0 "" ∈ g.host := by
    rw [hhost]; simp
  have h1 : g.interface.filter (fun v => decide (v ∈ g.interface)) = g.interface :=
    filter_mem_self (fun x hx => hx)
  have h2 : g.interface.filter (fun v => !decide (v ∈ g.interface)) = [] :=
    filter_not_mem_nil (fun x hx => hx)
  have hineb : g.interface.isEmpty = false := by
    cases hgi : g.interface with
    | nil => exact absurd hgi hine
    | cons _ _ => rfl
  rw [scanGroups, if_pos hmem, hhost, splitHosts_self]
  cases happ : applySlot policy loc desc g with
  | ok g1 => simp [h1, h2, hineb, happ, scanGroups, hostSplitStep, ifaceSplitStep]
  | fail e g1 => simp [h1, h2, hineb, happ, hostSplitStep, ifaceSplitStep]

end Awsl

namespace Awsl

/-! ### Unfolding equations for the two loops -/

theorem hostLoop_stop (policy : OverwritePolicy) (loc : Option String) (desc : Backend)
    (ifacesAll : List ServerInterface) (fuel i : Nat) (hosts : List String)
    (web : List WebServer) (pairsNew : List Pair) (h : ¬ i < hosts.length) :
    hostLoop policy loc desc ifacesAll fuel i hosts web pairsNew = .ok web hosts pairsNew := by
  rw [hostLoop.eq_def]
  simp only [if_neg h]

theorem hostLoop_out (policy : OverwritePolicy) (loc : Option String) (desc : Backend)
    (ifacesAll : List ServerInterface) (i : Nat) (hosts : List String)
    (web : List WebServer) (pairsNew : List Pair) (h : i < hosts.length) :
    hostLoop policy loc desc ifacesAll 0 i hosts web pairsNew = .out := by
  rw [hostLoop.eq_def]
  simp only [if_pos h]

theorem hostLoop_step (policy : OverwritePolicy) (loc : Option String) (desc : Backend)
    (ifacesAll : List ServerInterface) (fuel i : Nat) (hosts : List String)
    (web : List WebServer) (pairsNew : List Pair) (h : i < hosts.length) :
    hostLoop policy loc desc ifacesAll (fuel + 1) i hosts web pairsNew =
      match scanGroups policy loc desc (hosts.getD i "") web hosts ifacesAll [] with
      | .fail e web1 => .fail e web1
      | .ok web1 hosts1 ifaces1 buf =>
        if 0 < ifaces1.length ∧ ifaces1.length ≠ ifacesAll.length then
          hostLoop policy loc desc ifacesAll fuel i hosts1 (web1 ++ buf)
            (pairsNew ++ [([hosts.getD i ""], ifaces1)])
        else hostLoop policy loc desc ifacesAll fuel (i + 1) hosts1 (web1 ++ buf) pairsNew := by
  rw [hostLoop.eq_def]
  simp only [if_pos h]

theorem pairsLoop_nil (policy : OverwritePolicy) (loc : Option String) (desc : Backend)
    (fuel : Nat) (web : List WebServer) :
    pairsLoop policy loc desc fuel [] web = .ok web := by
  cases fuel <;> rfl

theorem pairsLoop_step (policy : OverwritePolicy) (loc : Option String) (desc : Backend)
    (fuel : Nat) (hosts : List String) (ifacesAll : List ServerInterface)
    (rest : List Pair) (web : List WebServer) :
    pairsLoop policy loc desc (fuel + 1) ((hosts, ifacesAll) :: rest) web =
      match hostLoop policy loc desc ifacesAll hosts.length 0 hosts web [] with
      | .out => .out
      | .fail e web1 => .fail e web1
      | .ok web1 hosts1 pairsNew =>
        pairsLoop policy loc desc fuel (rest ++ pairsNew)
          (if hosts1.isEmpty then web1
           else
             web1 ++ [match loc with
               | some l =>
                 { host := hosts1, interface := ifacesAll,
                   subservers := mapInsert l desc [], server := none }
               | none =>
                 { host := hosts1, interface := ifacesAll,
                   subservers := [], server := some desc }]) := by
  rw [pairsLoop]

/-- The full `add_server` call on the single-group registry `[g]` when
`g` precisely matches the request: the call reduces to the slot
application on `g`. -/
theorem add_server_exact (g : WebServer) (inst : WebServerInstance)
    (policy : OverwritePolicy)
    (hh : g.host = inst.host) (hi : g.interface = inst.interface)
    (hhne : inst.host ≠ []) (hine : inst.interface ≠ []) :
    Registry.add_server ⟨[g]⟩ inst policy =
      match applySlot policy inst.location inst.descriptor g with
      | .ok g1 => .ok [g1]
      | .fail e g1 => .fail e [g1] := by
  obtain ⟨a, t, hat⟩ : ∃ a t, inst.host = a :: t := by
    cases hv : inst.host with
    | nil => exact absurd hv hhne
    | cons a t => exact ⟨a, t, rfl⟩
  have hscan := scanGroups_exact policy inst.location inst.descriptor g
    inst.host inst.interface hh hi hhne hine
  have hlh : inst.host.length ≠ 0 := by rw [hat]; simp
  have hli : inst.interface.length ≠ 0 := by
    intro hz
    exact hine (List.length_eq_zero.mp hz)
  unfold Registry.add_server
  rw [if_neg hlh, if_neg hli, pairsLoop_step]
  have hfuel : inst.host.length = t.length + 1 := by rw [hat]; rfl
  rw [hfuel, hostLoop_step _ _ _ _ _ _ _ _ _ (by rw [hat]; simp)]
  rw [hscan]
  cases happ : applySlot policy inst.location inst.descriptor g with
  | fail e g1 => simp
  | ok g1 =>
    simp only []
    rw [if_neg (by simp)]
    rw [hostLoop_stop _ _ _ _ _ _ _ _ _ (by simp)]
    simp only [List.isEmpty_nil, if_true, List.append_nil, List.nil_append]
    rw [pairsLoop_nil]

end Awsl

namespace Awsl

/-- Claim C5: overwrite policy semantics on the precisely matched
group.  When the registry consists of the group `g` whose host and
interface lists are the request's, and the target slot (path or
default) is occupied: policy Error fails with AlreadyExists and leaves
the registry unchanged (no duplicate groups); policy Ignore succeeds
and leaves the existing backend untouched; policy Overwrite succeeds
and replaces the slot's backend.  When the slot is unoccupied the
backend is set under every policy. -/
theorem C5_overwrite_policy (g : WebServer) (inst : WebServerInstance)
    (policy : OverwritePolicy)
    (hh : g.host = inst.host) (hi : g.interface = inst.interface)
    (hhne : inst.host ≠ []) (hine : inst.interface ≠ []) :
    (slotOccupied inst.location g = true →
       (policy = .error →
          Registry.add_server ⟨[g]⟩ inst policy
            = .fail (.alreadyExists "Cannot overwrite existed server") [g]) ∧
       (policy = .ignore → Registry.add_server ⟨[g]⟩ inst policy = .ok [g]) ∧
       (policy = .overwrite →
          Registry.add_server ⟨[g]⟩ inst policy
            = .ok [writeSlot inst.location inst.descriptor g])) ∧
    (slotOccupied inst.location g = false →
       Registry.add_server ⟨[g]⟩ inst policy
        = .ok [writeSlot inst.location inst.descriptor g]) := by
  have hmain := add_server_exact g inst policy hh hi hhne hine
  constructor
  · intro hocc
    refine ⟨?_, ?_, ?_⟩
    · rintro rfl
      rw [hmain, applySlot_occupied_error hocc]
    · rintro rfl
      rw [hmain, applySlot_occupied_ignore hocc]
    · rintro rfl
      rw [hmain, applySlot_occupied_overwrite hocc]
  · intro hfree
    rw [hmain, applySlot_free hfree]

/-- Witness for C5 at a concrete input: the group {hosts = [host1],
interfaces = [Http:80], default backend 1} precisely matched by a
request for the occupied default slot with backend 2. -/
theorem C5_overwrite_policy_witness :
    Registry.add_server ⟨[⟨["host1"], [⟨80, .http⟩], [], some 1⟩]⟩
        ⟨["host1"], [⟨80, .http⟩], none, 2⟩ .error
      = .fail (.alreadyExists "Cannot overwrite existed server")
          [⟨["host1"], [⟨80, .http⟩], [], some 1⟩] :=
  ((C5_overwrite_policy ⟨["host1"], [⟨80, .http⟩], [], some 1⟩
      ⟨["host1"], [⟨80, .http⟩], none, 2⟩ .error rfl rfl
      (by decide) (by decide)).1 (by decide)).1 rfl

end Awsl

namespace Awsl

theorem isEmpty_false_of_ne_nil {α : Type} {l : List α} (h : l ≠ []) : l.isEmpty = false := by
  cases l with
  | nil => exact absurd rfl h
  | cons _ _ => rfl

/-- The scan of the single-group registry `[g]` when the request's
hosts are a proper non-empty subset of the group's hosts and the
interface sets coincide: the group is narrowed in place to the matched
hosts and a clone carrying the unmatched hosts is buffered. -/
theorem scanGroups_host_split (policy : OverwritePolicy) (loc : Option String)
    (desc : Backend) (g : WebServer) (hosts : List String)
    (ifaces : List ServerInterface)
    (hgn : g.host.Nodup) (hin : hosts.Nodup) (hne : hosts ≠ [])
    (hsub : ∀ x ∈ hosts, x ∈ g.host)
    (hrem : ∃ x ∈ g.host, x ∉ hosts)
    (hiface : ∀ v, v ∈ ifaces ↔ v ∈ g.interface) (hine : ifaces ≠ []) :
    scanGroups policy loc desc (hosts.getD 0 "") [g] hosts ifaces [] =
      match applySlot policy loc desc
          { g with host := g.host.filter (fun x => decide (x ∈ hosts)) } with
      | .ok g1 =>
        .ok [g1] [] ifaces [{ g with host := g.host.filter (fun x => !decide (x ∈ hosts)) }]
      | .fail e g1 => .fail e [g1] := by
  obtain ⟨a, t, rfl⟩ : ∃ a t, hosts = a :: t := by
    cases hosts with
    | nil => exact absurd rfl hne
    | cons a t => exact ⟨a, t, rfl⟩
  have hmem : ((a :: t).getD 0 "") ∈ g.host := hsub a (by simp)
  have hknown : (splitHosts g.host (a :: t)).1
      = g.host.filter (fun x => decide (x ∈ (a :: t))) := by
    rw [splitHosts_eq_filter hgn hin]
  have hother : (splitHosts g.host (a :: t)).2.1
      = g.host.filter (fun x => !decide (x ∈ (a :: t))) := by
    rw [splitHosts_eq_filter hgn hin]
  have hleft : (splitHosts g.host (a :: t)).2.2 = [] := by
    rw [splitHosts_eq_filter hgn hin]
    exact filter_not_mem_nil hsub
  have hkne : (g.host.filter (fun x => decide (x ∈ (a :: t)))).isEmpty = false := by
    refine isEmpty_false_of_ne_nil (List.ne_nil_of_mem (a := a) ?_)
    rw [List.mem_filter]
    exact ⟨hsub a (by simp), by simp⟩
  have hone : (g.host.filter (fun x => !decide (x ∈ (a :: t)))).isEmpty = false := by
    rcases hrem with ⟨x, hx1, hx2⟩
    refine isEmpty_false_of_ne_nil (List.ne_nil_of_mem (a := x) ?_)
    rw [List.mem_filter]
    exact ⟨hx1, by simp [hx2]⟩
  have hkI : ifaces.filter (fun v => decide (v ∈ g.interface)) = ifaces :=
    filter_mem_self (fun x hx => (hiface x).mp hx)
  have huI : ifaces.filter (fun v => !decide (v ∈ g.interface)) = [] :=
    filter_not_mem_nil (fun x hx => (hiface x).mp hx)
  have hoI : g.interface.filter (fun v => !decide (v ∈ ifaces)) = [] :=
    filter_not_mem_nil (fun x hx => (hiface x).mpr hx)
  have hineb : ifaces.isEmpty = false := isEmpty_false_of_ne_nil hine
  rw [scanGroups, if_pos hmem]
  simp only [hknown, hother, hleft, hkI, huI, hoI, hkne, hone, hineb,
    hostSplitStep, ifaceSplitStep,
    Bool.or_self, Bool.or_false, Bool.false_or, Bool.false_eq_true, if_false,
    List.isEmpty_nil, if_true, List.nil_append]
  cases happ : applySlot policy loc desc
      { g with host := g.host.filter (fun x => decide (x ∈ (a :: t))) } with
  | ok g1 => rfl
  | fail e g1 => rfl

/-- The full `add_server` call on `[g]` in the partial-host-overlap
configuration. -/
theorem add_server_host_split (g : WebServer) (inst : WebServerInstance)
    (policy : OverwritePolicy)
    (hgn : g.host.Nodup) (hin : inst.host.Nodup) (hne : inst.host ≠ [])
    (hsub : ∀ x ∈ inst.host, x ∈ g.host)
    (hrem : ∃ x ∈ g.host, x ∉ inst.host)
    (hiface : ∀ v, v ∈ inst.interface ↔ v ∈ g.interface)
    (hine : inst.interface ≠ []) :
    Registry.add_server ⟨[g]⟩ inst policy =
      match applySlot policy inst.location inst.descriptor
          { g with host := g.host.filter (fun x => decide (x ∈ inst.host)) } with
      | .ok g1 =>
        .ok [g1, { g with host := g.host.filter (fun x => !decide (x ∈ inst.host)) }]
      | .fail e g1 => .fail e [g1] := by
  obtain ⟨a, t, hat⟩ : ∃ a t, inst.host = a :: t := by
    cases hv : inst.host with
    | nil => exact absurd hv hne
    | cons a t => exact ⟨a, t, rfl⟩
  have hscan := scanGroups_host_split policy inst.location inst.descriptor g
    inst.host inst.interface hgn hin hne hsub hrem hiface hine
  have hlh : inst.host.length ≠ 0 := by rw [hat]; simp
  have hli : inst.interface.length ≠ 0 := by
    intro hz; exact hine (List.length_eq_zero.mp hz)
  unfold Registry.add_server
  rw [if_neg hlh, if_neg hli, pairsLoop_step]
  have hfuel : inst.host.length = t.length + 1 := by rw [hat]; rfl
  rw [hfuel, hostLoop_step _ _ _ _ _ _ _ _ _ (by rw [hat]; simp)]
  rw [hscan]
  cases happ : applySlot policy inst.location inst.descriptor
      { g with host := g.host.filter (fun x => decide (x ∈ inst.host)) } with
  | fail e g1 => simp
  | ok g1 =>
    simp only []
    rw [if_neg (by simp)]
    rw [hostLoop_stop _ _ _ _ _ _ _ _ _ (by simp)]
    simp only [List.isEmpty_nil, if_true, List.append_nil, List.nil_append]
    rw [pairsLoop_nil]
    rfl

/-- Claim C3 (amended): partial host overlap split.  When the request's
host set is a non-empty proper subset of an existing group's host set
and its interface set matches the group's, the successful add turns
that group into exactly two groups: one whose hosts are the
intersection and which receives the slot application (the new backend,
except that under policy Ignore with the slot already occupied the
existing backend is retained), and one whose hosts are the remainder
and whose path table and default backend are an unchanged copy of the
prior group's, both groups retaining the original interface set. -/
theorem C3_partial_host_overlap (g : WebServer) (inst : WebServerInstance)
    (policy : OverwritePolicy) (web1 : List WebServer)
    (hgn : g.host.Nodup) (hin : inst.host.Nodup) (hne : inst.host ≠ [])
    (hsub : ∀ x ∈ inst.host, x ∈ g.host)
    (hrem : ∃ x ∈ g.host, x ∉ inst.host)
    (hiface : ∀ v, v ∈ inst.interface ↔ v ∈ g.interface)
    (hine : inst.interface ≠ [])
    (hok : Registry.add_server ⟨[g]⟩ inst policy = .ok web1) :
    ∃ gNew,
      web1 = [gNew, { g with host := g.host.filter (fun x => !decide (x ∈ inst.host)) }] ∧
      gNew.host = g.host.filter (fun x => decide (x ∈ inst.host)) ∧
      gNew.interface = g.interface ∧
      ((slotOccupied inst.location g = true ∧ policy = .ignore ∧
          gNew.subservers = g.subservers ∧ gNew.server = g.server) ∨
        gNew = writeSlot inst.location inst.descriptor
          { g with host := g.host.filter (fun x => decide (x ∈ inst.host)) }) := by
  rw [add_server_host_split g inst policy hgn hin hne hsub hrem hiface hine] at hok
  cases happ : applySlot policy inst.location inst.descriptor
      { g with host := g.host.filter (fun x => decide (x ∈ inst.host)) } with
  | fail e g1 => rw [happ] at hok; cases hok
  | ok g1 =>
    rw [happ] at hok
    cases hok
    refine ⟨g1, rfl, ?_, ?_, ?_⟩
    · rw [applySlot_ok_host happ]
    · rw [applySlot_ok_interface happ]
    · rcases applySlot_ok_cases happ with ⟨hocc, hpol, rfl⟩ | hw
      · rw [slotOccupied_host_update] at hocc
        exact Or.inl ⟨hocc, hpol, rfl, rfl⟩
      · exact Or.inr hw

/-- Witness for C3 at the spec's Scenario B: the group
{hosts = [host1, host2], interfaces = [Http:80], default backend 1}
and the request ([host1], [Http:80], path "/test", backend 2). -/
theorem C3_partial_host_overlap_witness :
    ∃ gNew,
      ([⟨["host1"], [⟨80, .http⟩], [("/test", 2)], some 1⟩,
        ⟨["host2"], [⟨80, .http⟩], [], some 1⟩] : List WebServer)
        = [gNew, { WebServer.mk ["host1", "host2"] [⟨80, .http⟩] [] (some 1) with
            host := (["host1", "host2"] : List String).filter
              (fun x => !decide (x ∈ (["host1"] : List String))) }] ∧
      gNew.host = (["host1", "host2"] : List String).filter
        (fun x => decide (x ∈ (["host1"] : List String))) ∧
      gNew.interface = [⟨80, .http⟩] ∧
      ((slotOccupied (some "/test") ⟨["host1", "host2"], [⟨80, .http⟩], [], some 1⟩ = true ∧
          OverwritePolicy.error = .ignore ∧
          gNew.subservers = [] ∧ gNew.server = some 1) ∨
        gNew = writeSlot (some "/test") 2
          { WebServer.mk ["host1", "host2"] [⟨80, .http⟩] [] (some 1) with
            host := (["host1", "host2"] : List String).filter
              (fun x => decide (x ∈ (["host1"] : List String))) }) :=
  C3_partial_host_overlap ⟨["host1", "host2"], [⟨80, .http⟩], [], some 1⟩
    ⟨["host1"], [⟨80, .http⟩], some "/test", 2⟩ .error _
    (by decide) (by decide) (by decide) (by decide) ⟨"host2", by decide, by decide⟩
    (fun v => Iff.rfl) (by decide) (by decide)

end Awsl

namespace Awsl

/-- The scan of the single-group registry `[g]` when the request's
hosts coincide with the group's and its interfaces are a proper
non-empty subset of the group's: the group is narrowed in place to the
matched interfaces and a clone carrying the remaining interfaces is
buffered. -/
theorem scanGroups_iface_split (policy : OverwritePolicy) (loc : Option String)
    (desc : Backend) (g : WebServer) (hosts : List String)
    (ifaces : List ServerInterface)
    (hgn : g.host.Nodup) (hin : hosts.Nodup) (hne : hosts ≠ [])
    (hhost : ∀ x, x ∈ hosts ↔ x ∈ g.host)
    (hisub : ∀ v ∈ ifaces, v ∈ g.interface) (hine : ifaces ≠ [])
    (hirem : ∃ v ∈ g.interface, v ∉ ifaces) :
    scanGroups policy loc desc (hosts.getD 0 "") [g] hosts ifaces [] =
      match applySlot policy loc desc { g with interface := ifaces } with
      | .ok g1 =>
        .ok [g1] [] ifaces
          [{ g with interface := g.interface.filter (fun v => !decide (v ∈ ifaces)) }]
      | .fail e g1 => .fail e [g1] := by
  obtain ⟨a, t, rfl⟩ : ∃ a t, hosts = a :: t := by
    cases hosts with
    | nil => exact absurd rfl hne
    | cons a t => exact ⟨a, t, rfl⟩
  have hmem : ((a :: t).getD 0 "") ∈ g.host := (hhost a).mp (by simp)
  have hknown : (splitHosts g.host (a :: t)).1 = g.host := by
    rw [splitHosts_eq_filter hgn hin]
    exact filter_mem_self (fun x hx => (hhost x).mpr hx)
  have hother : (splitHosts g.host (a :: t)).2.1 = [] := by
    rw [splitHosts_eq_filter hgn hin]
    exact filter_not_mem_nil (fun x hx => (hhost x).mpr hx)
  have hleft : (splitHosts g.host (a :: t)).2.2 = [] := by
    rw [splitHosts_eq_filter hgn hin]
    exact filter_not_mem_nil (fun x hx => (hhost x).mp hx)
  have hgne : g.host.isEmpty = false :=
    isEmpty_false_of_ne_nil (List.ne_nil_of_mem hmem)
  have hkI : ifaces.filter (fun v => decide (v ∈ g.interface)) = ifaces :=
    filter_mem_self hisub
  have huI : ifaces.filter (fun v => !decide (v ∈ g.interface)) = [] :=
    filter_not_mem_nil hisub
  have hoI : (g.interface.filter (fun v => !decide (v ∈ ifaces))).isEmpty = false := by
    rcases hirem with ⟨v, hv1, hv2⟩
    refine isEmpty_false_of_ne_nil (List.ne_nil_of_mem (a := v) ?_)
    rw [List.mem_filter]
    exact ⟨hv1, by simp [hv2]⟩
  have hineb : ifaces.isEmpty = false := isEmpty_false_of_ne_nil hine
  rw [scanGroups, if_pos hmem]
  simp only [hknown, hother, hleft, hkI, huI, hoI, hgne, hineb,
    hostSplitStep, ifaceSplitStep,
    Bool.or_self, Bool.or_false, Bool.false_or, Bool.false_eq_true, if_false,
    List.isEmpty_nil, if_true, List.nil_append]
  cases happ : applySlot policy loc desc { g with interface := ifaces } with
  | ok g1 => rfl
  | fail e g1 => rfl

/-- The full `add_server` call on `[g]` in the partial-interface-overlap
configuration. -/
theorem add_server_iface_split (g : WebServer) (inst : WebServerInstance)
    (policy : OverwritePolicy)
    (hgn : g.host.Nodup) (hin : inst.host.Nodup) (hne : inst.host ≠ [])
    (hhost : ∀ x, x ∈ inst.host ↔ x ∈ g.host)
    (hisub : ∀ v ∈ inst.interface, v ∈ g.interface) (hine : inst.interface ≠ [])
    (hirem : ∃ v ∈ g.interface, v ∉ inst.interface) :
    Registry.add_server ⟨[g]⟩ inst policy =
      match applySlot policy inst.location inst.descriptor
          { g with interface := inst.interface } with
      | .ok g1 =>
        .ok [g1, { g with interface :=
          g.interface.filter (fun v => !decide (v ∈ inst.interface)) }]
      | .fail e g1 => .fail e [g1] := by
  obtain ⟨a, t, hat⟩ : ∃ a t, inst.host = a :: t := by
    cases hv : inst.host with
    | nil => exact absurd hv hne
    | cons a t => exact ⟨a, t, rfl⟩
  have hscan := scanGroups_iface_split policy inst.location inst.descriptor g
    inst.host inst.interface hgn hin hne hhost hisub hine hirem
  have hlh : inst.host.length ≠ 0 := by rw [hat]; simp
  have hli : inst.interface.length ≠ 0 := by
    intro hz; exact hine (List.length_eq_zero.mp hz)
  unfold Registry.add_server
  rw [if_neg hlh, if_neg hli, pairsLoop_step]
  have hfuel : inst.host.length = t.length + 1 := by rw [hat]; rfl
  rw [hfuel, hostLoop_step _ _ _ _ _ _ _ _ _ (by rw [hat]; simp)]
  rw [hscan]
  cases happ : applySlot policy inst.location inst.descriptor
      { g with interface := inst.interface } with
  | fail e g1 => simp
  | ok g1 =>
    simp only []
    rw [if_neg (by simp)]
    rw [hostLoop_stop _ _ _ _ _ _ _ _ _ (by simp)]
    simp only [List.isEmpty_nil, if_true, List.append_nil, List.nil_append]
    rw [pairsLoop_nil]
    rfl

/-- Claim C4 (amended): partial interface overlap split.  When the
request's hosts coincide with the target group's and its interface set
is a non-empty proper subset of the group's, the successful add turns
that group into exactly two groups split over interfaces: first the one
keeping the intersecting interfaces, which receives the slot
application (the new backend, except that under policy Ignore with the
slot already occupied the existing backend is retained), then the one
keeping the remaining interfaces with the backend table unchanged; in
particular the spec's Scenario C produces the groups
{hosts = [host1], interfaces = [Http:80]} and
{hosts = [host1], interfaces = [Http:81]} in that order (witness). -/
theorem C4_partial_interface_overlap (g : WebServer) (inst : WebServerInstance)
    (policy : OverwritePolicy) (web1 : List WebServer)
    (hgn : g.host.Nodup) (hin : inst.host.Nodup) (hne : inst.host ≠ [])
    (hhost : ∀ x, x ∈ inst.host ↔ x ∈ g.host)
    (hisub : ∀ v ∈ inst.interface, v ∈ g.interface) (hine : inst.interface ≠ [])
    (hirem : ∃ v ∈ g.interface, v ∉ inst.interface)
    (hok : Registry.add_server ⟨[g]⟩ inst policy = .ok web1) :
    ∃ gNew,
      web1 = [gNew,
        { g with interface := g.interface.filter (fun v => !decide (v ∈ inst.interface)) }] ∧
      gNew.host = g.host ∧ gNew.interface = inst.interface ∧
      ((slotOccupied inst.location g = true ∧ policy = .ignore ∧
          gNew.subservers = g.subservers ∧ gNew.server = g.server) ∨
        gNew = writeSlot inst.location inst.descriptor
          { g with interface := inst.interface }) := by
  rw [add_server_iface_split g inst policy hgn hin hne hhost hisub hine hirem] at hok
  cases happ : applySlot policy inst.location inst.descriptor
      { g with interface := inst.interface } with
  | fail e g1 => rw [happ] at hok; cases hok
  | ok g1 =>
    rw [happ] at hok
    cases hok
    refine ⟨g1, rfl, ?_, ?_, ?_⟩
    · rw [applySlot_ok_host happ]
    · rw [applySlot_ok_interface happ]
    · rcases applySlot_ok_cases happ with ⟨hocc, hpol, rfl⟩ | hw
      · rw [slotOccupied_interface_update] at hocc
        exact Or.inl ⟨hocc, hpol, rfl, rfl⟩
      · exact Or.inr hw

/-- Witness for C4 at the spec's Scenario C: the group
{hosts = [host1], interfaces = [Http:80, Http:81], default backend 1}
and the request ([host1], [Http:80], path "/test", backend 2). -/
theorem C4_partial_interface_overlap_witness :
    ∃ gNew,
      ([⟨["host1"], [⟨80, .http⟩], [("/test", 2)], some 1⟩,
        ⟨["host1"], [⟨81, .http⟩], [], some 1⟩] : List WebServer)
        = [gNew, { WebServer.mk ["host1"] [⟨80, .http⟩, ⟨81, .http⟩] [] (some 1) with
            interface := ([⟨80, .http⟩, ⟨81, .http⟩] : List ServerInterface).filter
              (fun v => !decide (v ∈ ([⟨80, .http⟩] : List ServerInterface))) }] ∧
      gNew.host = ["host1"] ∧ gNew.interface = [⟨80, .http⟩] ∧
      ((slotOccupied (some "/test")
            ⟨["host1"], [⟨80, .http⟩, ⟨81, .http⟩], [], some 1⟩ = true ∧
          OverwritePolicy.error = .ignore ∧
          gNew.subservers = [] ∧ gNew.server = some 1) ∨
        gNew = writeSlot (some "/test") 2
          { WebServer.mk ["host1"] [⟨80, .http⟩, ⟨81, .http⟩] [] (some 1) with
            interface := [⟨80, .http⟩] }) :=
  C4_partial_interface_overlap ⟨["host1"], [⟨80, .http⟩, ⟨81, .http⟩], [], some 1⟩
    ⟨["host1"], [⟨80, .http⟩], some "/test", 2⟩ .error _
    (by decide) (by decide) (by decide) (fun x => Iff.rfl)
    (by decide) (by decide) ⟨⟨81, .http⟩, by decide, by decide⟩ (by decide)

end Awsl

namespace Awsl

/-! ### Case lemmas for the split steps -/

theorem hostSplitStep_cases (g : WebServer) (known other : List String)
    (buf : List WebServer) :
    (other = [] ∧ hostSplitStep g known other buf = (g, buf)) ∨
    (other ≠ [] ∧ hostSplitStep g known other buf
        = ({ g with host := known }, buf ++ [{ g with host := other }])) := by
  by_cases h : other.isEmpty = true
  · exact Or.inl ⟨List.isEmpty_iff.mp h, by simp [hostSplitStep, h]⟩
  · have hne : other ≠ [] := List.isEmpty_eq_false.mp (Bool.not_eq_true _ ▸ eq_false_of_ne_true h)
    exact Or.inr ⟨hne, by simp [hostSplitStep, h]⟩

theorem ifaceSplitStep_cases (g : WebServer) (known other : List ServerInterface)
    (buf : List WebServer) :
    (other = [] ∧ ifaceSplitStep g known other buf = (g, buf)) ∨
    (other ≠ [] ∧ ifaceSplitStep g known other buf
        = ({ g with interface := known }, buf ++ [{ g with interface := other }])) := by
  by_cases h : other.isEmpty = true
  · exact Or.inl ⟨List.isEmpty_iff.mp h, by simp [ifaceSplitStep, h]⟩
  · have hne : other ≠ [] := List.isEmpty_eq_false.mp (Bool.not_eq_true _ ▸ eq_false_of_ne_true h)
    exact Or.inr ⟨hne, by simp [ifaceSplitStep, h]⟩

theorem GroupsOk_cons {g : WebServer} {rest : List WebServer}
    (hg : g.host ≠ [] ∧ g.interface ≠ []) (hr : GroupsOk rest) : GroupsOk (g :: rest) := by
  intro x hx
  rcases List.mem_cons.mp hx with rfl | hx
  · exact hg
  · exact hr x hx

theorem GroupsOk_append {w1 w2 : List WebServer} (h1 : GroupsOk w1) (h2 : GroupsOk w2) :
    GroupsOk (w1 ++ w2) := by
  intro x hx
  rcases List.mem_append.mp hx with hx | hx
  · exact h1 x hx
  · exact h2 x hx

theorem GroupsOk_of_cons {g : WebServer} {rest : List WebServer}
    (h : GroupsOk (g :: rest)) : (g.host ≠ [] ∧ g.interface ≠ []) ∧ GroupsOk rest :=
  ⟨h g (List.mem_cons_self g rest), fun x hx => h x (List.mem_cons_of_mem g hx)⟩

end Awsl

namespace Awsl

theorem PairsOk_append {p1 p2 : List Pair} (h1 : PairsOk p1) (h2 : PairsOk p2) :
    PairsOk (p1 ++ p2) := by
  intro p hp
  rcases List.mem_append.mp hp with hp | hp
  · exact h1 p hp
  · exact h2 p hp

theorem scanGroups_nonempty (policy : OverwritePolicy) (loc : Option String)
    (desc : Backend) (host : String) (web : List WebServer) :
    ∀ (hosts : List String) (ifaces : List ServerInterface) (buf : List WebServer),
      GroupsOk web → GroupsOk buf →
      ScanNonempty (scanGroups policy loc desc host web hosts ifaces buf) := by
  induction web with
  | nil =>
    intro hosts ifaces buf hw hb
    exact ⟨hw, hb⟩
  | cons g rest ih =>
    intro hosts ifaces buf hw hb
    obtain ⟨hg, hrest⟩ := GroupsOk_of_cons hw
    rw [scanGroups]
    by_cases hmem : host ∈ g.host
    · rw [if_pos hmem]
      simp only []
      by_cases hskip : ((splitHosts g.host hosts).1.isEmpty
          || (ifaces.filter (fun v => decide (v ∈ g.interface))).isEmpty) = true
      · rw [if_pos hskip]
        have hrec := ih ((splitHosts g.host hosts).2.2 ++ (splitHosts g.host hosts).1)
          ifaces buf hrest hb
        cases hs : scanGroups policy loc desc host rest
            ((splitHosts g.host hosts).2.2 ++ (splitHosts g.host hosts).1) ifaces buf with
        | ok web1 h1 i1 b1 =>
          rw [hs] at hrec
          exact ⟨GroupsOk_cons hg hrec.1, hrec.2⟩
        | fail e web1 =>
          rw [hs] at hrec
          exact GroupsOk_cons hg hrec
      · rw [if_neg hskip]
        have hsf := Bool.or_eq_false_iff.mp (eq_false_of_ne_true hskip)
        have hK : (splitHosts g.host hosts).1 ≠ [] := List.isEmpty_eq_false.mp hsf.1
        have hKI : ifaces.filter (fun v => decide (v ∈ g.interface)) ≠ [] :=
          List.isEmpty_eq_false.mp hsf.2
        obtain ⟨ga, bufa, hp1, hgah, hgai, hbufa⟩ :
            ∃ ga bufa,
              hostSplitStep g (splitHosts g.host hosts).1 (splitHosts g.host hosts).2.1 buf
                = (ga, bufa) ∧ ga.host ≠ [] ∧ ga.interface ≠ [] ∧ GroupsOk bufa := by
          rcases hostSplitStep_cases g (splitHosts g.host hosts).1
              (splitHosts g.host hosts).2.1 buf with ⟨hOe, hp1⟩ | ⟨hOne, hp1⟩
          · exact ⟨g, buf, hp1, hg.1, hg.2, hb⟩
          · refine ⟨_, _, hp1, hK, hg.2, GroupsOk_append hb ?_⟩
            intro x hx
            rw [List.mem_singleton] at hx
            subst hx
            exact ⟨hOne, hg.2⟩
        obtain ⟨gb, bufb, hp2, hgbh, hgbi, hbufb⟩ :
            ∃ gb bufb,
              ifaceSplitStep ga (ifaces.filter (fun v => decide (v ∈ g.interface)))
                  (g.interface.filter (fun v =>
                    !decide (v ∈ ifaces.filter (fun v => decide (v ∈ g.interface))))) bufa
                = (gb, bufb) ∧ gb.host ≠ [] ∧ gb.interface ≠ [] ∧ GroupsOk bufb := by
          rcases ifaceSplitStep_cases ga (ifaces.filter (fun v => decide (v ∈ g.interface)))
              (g.interface.filter (fun v =>
                !decide (v ∈ ifaces.filter (fun v => decide (v ∈ g.interface))))) bufa
            with ⟨hOe, hp2⟩ | ⟨hOne, hp2⟩
          · exact ⟨ga, bufa, hp2, hgah, hgai, hbufa⟩
          · refine ⟨_, _, hp2, hgah, hKI, GroupsOk_append hbufa ?_⟩
            intro x hx
            rw [List.mem_singleton] at hx
            subst hx
            exact ⟨hgah, hOne⟩
        simp only [hp1]
        simp only [hp2]
        cases happ : applySlot policy loc desc gb with
        | fail e g1 =>
          rcases applySlot_fail_cases happ with ⟨_, _, _, rfl⟩
          exact GroupsOk_cons ⟨hgbh, hgbi⟩ hrest
        | ok g1 =>
          have hg1 : g1.host ≠ [] ∧ g1.interface ≠ [] := by
            rw [applySlot_ok_host happ, applySlot_ok_interface happ]
            exact ⟨hgbh, hgbi⟩
          have hrec := ih (splitHosts g.host hosts).2.2
            (if (ifaces.filter (fun v => !decide (v ∈ g.interface))).isEmpty then ifaces
             else ifaces.filter (fun v => !decide (v ∈ g.interface))) bufb hrest hbufb
          cases hs : scanGroups policy loc desc host rest (splitHosts g.host hosts).2.2
              (if (ifaces.filter (fun v => !decide (v ∈ g.interface))).isEmpty then ifaces
               else ifaces.filter (fun v => !decide (v ∈ g.interface))) bufb with
          | ok web1 h1 i1 b1 =>
            rw [hs] at hrec
            exact ⟨GroupsOk_cons hg1 hrec.1, hrec.2⟩
          | fail e web1 =>
            rw [hs] at hrec
            exact GroupsOk_cons hg1 hrec
    · rw [if_neg hmem]
      have hrec := ih hosts ifaces buf hrest hb
      cases hs : scanGroups policy loc desc host rest hosts ifaces buf with
      | ok web1 h1 i1 b1 =>
        rw [hs] at hrec
        exact ⟨GroupsOk_cons hg hrec.1, hrec.2⟩
      | fail e web1 =>
        rw [hs] at hrec
        exact GroupsOk_cons hg hrec

end Awsl

namespace Awsl

theorem hostLoop_nonempty (policy : OverwritePolicy) (loc : Option String)
    (desc : Backend) (ifacesAll : List ServerInterface) :
    ∀ (fuel i : Nat) (hosts : List String) (web : List WebServer) (pairsNew : List Pair),
      GroupsOk web → PairsOk pairsNew →
      HostNonempty (hostLoop policy loc desc ifacesAll fuel i hosts web pairsNew) := by
  intro fuel
  induction fuel with
  | zero =>
    intro i hosts web np hw hnp
    by_cases h : i < hosts.length
    · rw [hostLoop_out _ _ _ _ _ _ _ _ h]; trivial
    · rw [hostLoop_stop _ _ _ _ _ _ _ _ _ h]; exact ⟨hw, hnp⟩
  | succ fuel ih =>
    intro i hosts web np hw hnp
    by_cases h : i < hosts.length
    · rw [hostLoop_step _ _ _ _ _ _ _ _ _ h]
      have hscan := scanGroups_nonempty policy loc desc (hosts.getD i "") web hosts
        ifacesAll [] hw (fun x hx => absurd hx (List.not_mem_nil x))
      cases hs : scanGroups policy loc desc (hosts.getD i "") web hosts ifacesAll [] with
      | fail e web1 =>
        rw [hs] at hscan
        exact hscan
      | ok web1 hosts1 ifaces1 buf =>
        rw [hs] at hscan
        simp only []
        by_cases hpush : 0 < ifaces1.length ∧ ifaces1.length ≠ ifacesAll.length
        · rw [if_pos hpush]
          refine ih i hosts1 (web1 ++ buf) (np ++ [([hosts.getD i ""], ifaces1)])
            (GroupsOk_append hscan.1 hscan.2) (PairsOk_append hnp ?_)
          intro p hp
          rw [List.mem_singleton] at hp
          subst hp
          refine ⟨by simp, ?_⟩
          intro hnil
          simp only [] at hnil
          rw [hnil] at hpush
          exact absurd hpush.1 (by simp)
        · rw [if_neg hpush]
          exact ih (i + 1) hosts1 (web1 ++ buf) np (GroupsOk_append hscan.1 hscan.2) hnp
    · rw [hostLoop_stop _ _ _ _ _ _ _ _ _ h]; exact ⟨hw, hnp⟩

theorem pairsLoop_nonempty (policy : OverwritePolicy) (loc : Option String)
    (desc : Backend) :
    ∀ (fuel : Nat) (pairs : List Pair) (web : List WebServer),
      GroupsOk web → PairsOk pairs →
      AddNonempty (pairsLoop policy loc desc fuel pairs web) := by
  intro fuel
  induction fuel with
  | zero =>
    intro pairs web hw hp
    cases pairs with
    | nil => rw [pairsLoop_nil]; exact hw
    | cons p rest => exact trivial
  | succ fuel ih =>
    intro pairs web hw hp
    cases pairs with
    | nil => rw [pairsLoop_nil]; exact hw
    | cons p rest =>
      obtain ⟨hosts, ifacesAll⟩ := p
      have hhead : hosts ≠ [] ∧ ifacesAll ≠ [] :=
        hp (hosts, ifacesAll) (List.mem_cons_self _ _)
      have hrest : PairsOk rest := fun q hq => hp q (List.mem_cons_of_mem _ hq)
      rw [pairsLoop_step]
      have hhl := hostLoop_nonempty policy loc desc ifacesAll hosts.length 0 hosts web []
        hw (fun x hx => absurd hx (List.not_mem_nil x))
      cases hh : hostLoop policy loc desc ifacesAll hosts.length 0 hosts web [] with
      | out => trivial
      | fail e web1 =>
        rw [hh] at hhl
        exact hhl
      | ok web1 hosts1 pairsNew =>
        rw [hh] at hhl
        simp only []
        have hp2 : PairsOk (rest ++ pairsNew) := PairsOk_append hrest hhl.2
        by_cases he : hosts1.isEmpty = true
        · rw [if_pos he]
          exact ih (rest ++ pairsNew) web1 hhl.1 hp2
        · rw [if_neg he]
          refine ih (rest ++ pairsNew) _ (GroupsOk_append hhl.1 ?_) hp2
          intro x hx
          rw [List.mem_singleton] at hx
          subst hx
          have h1 : hosts1 ≠ [] := by
            intro hn
            exact he (by rw [hn]; rfl)
          cases loc with
          | some l => exact ⟨h1, hhead.2⟩
          | none => exact ⟨h1, hhead.2⟩

theorem add_server_nonempty (reg : Registry) (inst : WebServerInstance)
    (policy : OverwritePolicy) (hw : GroupsOk reg.web) :
    AddNonempty (Registry.add_server reg inst policy) := by
  unfold Registry.add_server
  by_cases h1 : inst.host.length = 0
  · rw [if_pos h1]; exact hw
  · rw [if_neg h1]
    by_cases h2 : inst.interface.length = 0
    · rw [if_pos h2]; exact hw
    · rw [if_neg h2]
      refine pairsLoop_nonempty policy inst.location inst.descriptor _ _ _ hw ?_
      intro p hp
      rw [List.mem_singleton] at hp
      subst hp
      constructor
      · intro hn
        simp only [] at hn
        exact h1 (by rw [hn]; rfl)
      · intro hn
        simp only [] at hn
        exact h2 (by rw [hn]; rfl)

/-- Claim C9: in every registry state reachable from the empty registry
by any sequence of `add_server` calls (each succeeding or failing) and
`clear` calls, every retained group has a non-empty host list and a
non-empty interface list. -/
theorem C9_nonempty_groups (web : List WebServer) (hr : Reach web) :
    ∀ g ∈ web, g.host ≠ [] ∧ g.interface ≠ [] := by
  induction hr with
  | empty => intro g hg; cases hg
  | addOk w inst policy w1 hr hadd ih =>
    have hne := add_server_nonempty ⟨w⟩ inst policy ih
    rw [hadd] at hne
    exact hne
  | addFail w inst policy e w1 hr hadd ih =>
    have hne := add_server_nonempty ⟨w⟩ inst policy ih
    rw [hadd] at hne
    exact hne
  | clear w hr ih => intro g hg; cases hg

/-- Witness for C9 at a concrete reachable state: the registry after
one successful add from the empty registry. -/
theorem C9_nonempty_groups_witness :
    (WebServer.mk ["host1"] [⟨80, .http⟩] [] (some 1)).host ≠ [] ∧
    (WebServer.mk ["host1"] [⟨80, .http⟩] [] (some 1)).interface ≠ [] :=
  C9_nonempty_groups _
    (Reach.addOk [] ⟨["host1"], [⟨80, .http⟩], none, 1⟩ .error
      [WebServer.mk ["host1"] [⟨80, .http⟩] [] (some 1)] Reach.empty (by decide))
    (WebServer.mk ["host1"] [⟨80, .http⟩] [] (some 1)) (by decide)

end Awsl

namespace Awsl

/-! ### Frame lemmas (claim C10) -/

theorem sameExceptSlot_refl (loc : Option String) (g : WebServer) :
    sameExceptSlot loc g g := by
  cases loc with
  | some p => exact ⟨fun q _ => rfl, rfl⟩
  | none => exact rfl

theorem sameExceptSlot_trans {loc : Option String} {a b c : WebServer}
    (h1 : sameExceptSlot loc a b) (h2 : sameExceptSlot loc b c) :
    sameExceptSlot loc a c := by
  cases loc with
  | some p => exact ⟨fun q hq => (h2.1 q hq).trans (h1.1 q hq), h2.2.trans h1.2⟩
  | none => exact h2.trans h1

theorem freshExceptSlot_of_same {loc : Option String} {a b : WebServer}
    (h1 : freshExceptSlot loc a) (h2 : sameExceptSlot loc a b) :
    freshExceptSlot loc b := by
  cases loc with
  | some p => exact ⟨fun q hq => (h2.1 q hq).trans (h1.1 q hq), h2.2.trans h1.2⟩
  | none => exact h2.trans h1

theorem sameExceptSlot_host_update (loc : Option String) (g : WebServer)
    (h : List String) : sameExceptSlot loc g { g with host := h } := by
  cases loc with
  | some p => exact ⟨fun q _ => rfl, rfl⟩
  | none => exact rfl

theorem sameExceptSlot_interface_update (loc : Option String) (g : WebServer)
    (i : List ServerInterface) : sameExceptSlot loc g { g with interface := i } := by
  cases loc with
  | some p => exact ⟨fun q _ => rfl, rfl⟩
  | none => exact rfl

theorem sameExceptSlot_writeSlot (loc : Option String) (desc : Backend) (g : WebServer) :
    sameExceptSlot loc g (writeSlot loc desc g) := by
  cases loc with
  | some p =>
    exact ⟨fun q hq => mapLookup_mapInsert_ne desc g.subservers hq, rfl⟩
  | none => exact rfl

theorem sameExceptSlot_applySlot {policy : OverwritePolicy} {loc : Option String}
    {desc : Backend} {g g1 : WebServer} (h : applySlot policy loc desc g = .ok g1) :
    sameExceptSlot loc g g1 := by
  rcases applySlot_ok_cases h with ⟨_, _, heq⟩ | heq
  · rw [heq]; exact sameExceptSlot_refl loc g
  · rw [heq]; exact sameExceptSlot_writeSlot loc desc g

theorem freshExceptSlot_new (loc : Option String) (desc : Backend)
    (hosts : List String) (ifaces : List ServerInterface) :
    freshExceptSlot loc
      (match loc with
        | some l =>
          { host := hosts, interface := ifaces,
            subservers := mapInsert l desc [], server := none }
        | none =>
          { host := hosts, interface := ifaces,
            subservers := [], server := some desc }) := by
  cases loc with
  | some l =>
    refine ⟨fun q hq => ?_, rfl⟩
    simp [mapInsert, mapLookup, Ne.symm hq]
  | none => exact rfl

theorem frameOk_refl (loc : Option String) (w : List WebServer) : frameOk loc w w :=
  fun g hg => Or.inl ⟨g, hg, sameExceptSlot_refl loc g⟩

theorem frameOk_trans {loc : Option String} {w0 w1 w2 : List WebServer}
    (h1 : frameOk loc w0 w1) (h2 : frameOk loc w1 w2) : frameOk loc w0 w2 := by
  intro g2 hg2
  rcases h2 g2 hg2 with ⟨g1, hg1, hs⟩ | hf
  · rcases h1 g1 hg1 with ⟨g0, hg0, hs0⟩ | hf0
    · exact Or.inl ⟨g0, hg0, sameExceptSlot_trans hs0 hs⟩
    · exact Or.inr (freshExceptSlot_of_same hf0 hs)
  · exact Or.inr hf

theorem frameOk_cons {loc : Option String} {g0 g1 : WebServer} {w0 w1 : List WebServer}
    (hg : sameExceptSlot loc g0 g1) (hw : frameOk loc w0 w1) :
    frameOk loc (g0 :: w0) (g1 :: w1) := by
  intro x hx
  rcases List.mem_cons.mp hx with rfl | hx
  · exact Or.inl ⟨g0, List.mem_cons_self _ _, hg⟩
  · rcases hw x hx with ⟨y, hy, hs⟩ | hf
    · exact Or.inl ⟨y, List.mem_cons_of_mem _ hy, hs⟩
    · exact Or.inr hf

theorem frameOk_mono {loc : Option String} {w0 w0x w1 : List WebServer}
    (hsub : ∀ g ∈ w0, g ∈ w0x) (h : frameOk loc w0 w1) : frameOk loc w0x w1 := by
  intro x hx
  rcases h x hx with ⟨y, hy, hs⟩ | hf
  · exact Or.inl ⟨y, hsub y hy, hs⟩
  · exact Or.inr hf

end Awsl

namespace Awsl

theorem scanGroups_frame (policy : OverwritePolicy) (loc : Option String)
    (desc : Backend) (host : String) (web : List WebServer) :
    ∀ (hosts : List String) (ifaces : List ServerInterface) (buf : List WebServer),
      ScanFrame loc (web ++ buf) (scanGroups policy loc desc host web hosts ifaces buf) := by
  induction web with
  | nil =>
    intro hosts ifaces buf
    exact frameOk_refl loc buf
  | cons g rest ih =>
    intro hosts ifaces buf
    rw [scanGroups]
    by_cases hmem : host ∈ g.host
    · rw [if_pos hmem]
      simp only []
      by_cases hskip : ((splitHosts g.host hosts).1.isEmpty
          || (ifaces.filter (fun v => decide (v ∈ g.interface))).isEmpty) = true
      · rw [if_pos hskip]
        have hrec := ih ((splitHosts g.host hosts).2.2 ++ (splitHosts g.host hosts).1)
          ifaces buf
        cases hs : scanGroups policy loc desc host rest
            ((splitHosts g.host hosts).2.2 ++ (splitHosts g.host hosts).1) ifaces buf with
        | ok web1 h1 i1 b1 =>
          rw [hs] at hrec
          exact frameOk_cons (sameExceptSlot_refl loc g) hrec
        | fail e web1 =>
          rw [hs] at hrec
          exact frameOk_cons (sameExceptSlot_refl loc g) hrec
      · rw [if_neg hskip]
        obtain ⟨ga, bufa, hp1, hsga, hbufa⟩ :
            ∃ ga bufa,
              hostSplitStep g (splitHosts g.host hosts).1 (splitHosts g.host hosts).2.1 buf
                = (ga, bufa) ∧ sameExceptSlot loc g ga ∧
                (∀ x ∈ bufa, x ∈ buf ∨ sameExceptSlot loc g x) := by
          rcases hostSplitStep_cases g (splitHosts g.host hosts).1
              (splitHosts g.host hosts).2.1 buf with ⟨_, hp1⟩ | ⟨_, hp1⟩
          · exact ⟨g, buf, hp1, sameExceptSlot_refl loc g, fun x hx => Or.inl hx⟩
          · refine ⟨_, _, hp1, sameExceptSlot_host_update loc g _, ?_⟩
            intro x hx
            rcases List.mem_append.mp hx with hx | hx
            · exact Or.inl hx
            · rw [List.mem_singleton] at hx
              subst hx
              exact Or.inr (sameExceptSlot_host_update loc g _)
        obtain ⟨gb, bufb, hp2, hsgb, hbufb⟩ :
            ∃ gb bufb,
              ifaceSplitStep ga (ifaces.filter (fun v => decide (v ∈ g.interface)))
                  (g.interface.filter (fun v =>
                    !decide (v ∈ ifaces.filter (fun v => decide (v ∈ g.interface))))) bufa
                = (gb, bufb) ∧ sameExceptSlot loc g gb ∧
                (∀ x ∈ bufb, x ∈ buf ∨ sameExceptSlot loc g x) := by
          rcases ifaceSplitStep_cases ga (ifaces.filter (fun v => decide (v ∈ g.interface)))
              (g.interface.filter (fun v =>
                !decide (v ∈ ifaces.filter (fun v => decide (v ∈ g.interface))))) bufa
            with ⟨_, hp2⟩ | ⟨_, hp2⟩
          · exact ⟨ga, bufa, hp2, hsga, hbufa⟩
          · refine ⟨_, _, hp2,
              sameExceptSlot_trans hsga (sameExceptSlot_interface_update loc ga _), ?_⟩
            intro x hx
            rcases List.mem_append.mp hx with hx | hx
            · exact hbufa x hx
            · rw [List.mem_singleton] at hx
              subst hx
              exact Or.inr (sameExceptSlot_trans hsga
                (sameExceptSlot_interface_update loc ga _))
        simp only [hp1]
        simp only [hp2]
        cases happ : applySlot policy loc desc gb with
        | fail e g1 =>
          rcases applySlot_fail_cases happ with ⟨_, _, _, rfl⟩
          intro x hx
          rcases List.mem_cons.mp hx with rfl | hx
          · exact Or.inl ⟨g, List.mem_cons_self _ _, hsgb⟩
          · exact Or.inl ⟨x, List.mem_append_left _ (List.mem_cons_of_mem _ hx),
              sameExceptSlot_refl loc x⟩
        | ok g1 =>
          have hsg1 : sameExceptSlot loc g g1 :=
            sameExceptSlot_trans hsgb (sameExceptSlot_applySlot happ)
          have hop1 : frameOk loc ((g :: rest) ++ buf) (rest ++ bufb) := by
            intro x hx
            rcases List.mem_append.mp hx with hx | hx
            · exact Or.inl ⟨x, List.mem_append_left _ (List.mem_cons_of_mem _ hx),
                sameExceptSlot_refl loc x⟩
            · rcases hbufb x hx with hx2 | hx2
              · exact Or.inl ⟨x, List.mem_append_right _ hx2, sameExceptSlot_refl loc x⟩
              · exact Or.inl ⟨g, List.mem_cons_self g rest |> List.mem_append_left _, hx2⟩
          have hrec := ih (splitHosts g.host hosts).2.2
            (if (ifaces.filter (fun v => !decide (v ∈ g.interface))).isEmpty then ifaces
             else ifaces.filter (fun v => !decide (v ∈ g.interface))) bufb
          cases hs : scanGroups policy loc desc host rest (splitHosts g.host hosts).2.2
              (if (ifaces.filter (fun v => !decide (v ∈ g.interface))).isEmpty then ifaces
               else ifaces.filter (fun v => !decide (v ∈ g.interface))) bufb with
          | ok web1 h1 i1 b1 =>
            rw [hs] at hrec
            intro x hx
            rcases List.mem_cons.mp hx with rfl | hx
            · exact Or.inl ⟨g, List.mem_cons_self g rest |> List.mem_append_left _, hsg1⟩
            · exact frameOk_trans hop1 hrec x hx
          | fail e web1 =>
            rw [hs] at hrec
            intro x hx
            rcases List.mem_cons.mp hx with rfl | hx
            · exact Or.inl ⟨g, List.mem_cons_self g rest |> List.mem_append_left _, hsg1⟩
            · exact frameOk_trans hop1 hrec x hx
    · rw [if_neg hmem]
      have hrec := ih hosts ifaces buf
      cases hs : scanGroups policy loc desc host rest hosts ifaces buf with
      | ok web1 h1 i1 b1 =>
        rw [hs] at hrec
        exact frameOk_cons (sameExceptSlot_refl loc g) hrec
      | fail e web1 =>
        rw [hs] at hrec
        exact frameOk_cons (sameExceptSlot_refl loc g) hrec

end Awsl

namespace Awsl

theorem HostFrame_trans {loc : Option String} {w0 w1 : List WebServer} {r : HostResult}
    (h : frameOk loc w0 w1) (h2 : HostFrame loc w1 r) : HostFrame loc w0 r := by
  cases r with
  | ok web1 hosts1 pn => exact frameOk_trans h h2
  | fail e web1 => exact frameOk_trans h h2
  | out => trivial

theorem AddFrame_trans {loc : Option String} {w0 w1 : List WebServer} {r : AddResult}
    (h : frameOk loc w0 w1) (h2 : AddFrame loc w1 r) : AddFrame loc w0 r := by
  cases r with
  | ok web1 => exact frameOk_trans h h2
  | fail e web1 => exact frameOk_trans h h2
  | out => trivial

theorem hostLoop_frame (policy : OverwritePolicy) (loc : Option String)
    (desc : Backend) (ifacesAll : List ServerInterface) :
    ∀ (fuel i : Nat) (hosts : List String) (web : List WebServer) (pairsNew : List Pair),
      HostFrame loc web (hostLoop policy loc desc ifacesAll fuel i hosts web pairsNew) := by
  intro fuel
  induction fuel with
  | zero =>
    intro i hosts web np
    by_cases h : i < hosts.length
    · rw [hostLoop_out _ _ _ _ _ _ _ _ h]; trivial
    · rw [hostLoop_stop _ _ _ _ _ _ _ _ _ h]; exact frameOk_refl loc web
  | succ fuel ih =>
    intro i hosts web np
    by_cases h : i < hosts.length
    · rw [hostLoop_step _ _ _ _ _ _ _ _ _ h]
      have hscan := scanGroups_frame policy loc desc (hosts.getD i "") web hosts ifacesAll []
      cases hs : scanGroups policy loc desc (hosts.getD i "") web hosts ifacesAll [] with
      | fail e web1 =>
        rw [hs] at hscan
        rw [List.append_nil] at hscan
        exact hscan
      | ok web1 hosts1 ifaces1 buf =>
        rw [hs] at hscan
        rw [List.append_nil] at hscan
        simp only []
        by_cases hpush : 0 < ifaces1.length ∧ ifaces1.length ≠ ifacesAll.length
        · rw [if_pos hpush]
          exact HostFrame_trans hscan (ih i hosts1 (web1 ++ buf) _)
        · rw [if_neg hpush]
          exact HostFrame_trans hscan (ih (i + 1) hosts1 (web1 ++ buf) np)
    · rw [hostLoop_stop _ _ _ _ _ _ _ _ _ h]; exact frameOk_refl loc web

theorem pairsLoop_frame (policy : OverwritePolicy) (loc : Option String)
    (desc : Backend) :
    ∀ (fuel : Nat) (pairs : List Pair) (web : List WebServer),
      AddFrame loc web (pairsLoop policy loc desc fuel pairs web) := by
  intro fuel
  induction fuel with
  | zero =>
    intro pairs web
    cases pairs with
    | nil => rw [pairsLoop_nil]; exact frameOk_refl loc web
    | cons p rest => exact trivial
  | succ fuel ih =>
    intro pairs web
    cases pairs with
    | nil => rw [pairsLoop_nil]; exact frameOk_refl loc web
    | cons p rest =>
      obtain ⟨hosts, ifacesAll⟩ := p
      rw [pairsLoop_step]
      have hhl := hostLoop_frame policy loc desc ifacesAll hosts.length 0 hosts web []
      cases hh : hostLoop policy loc desc ifacesAll hosts.length 0 hosts web [] with
      | out => trivial
      | fail e web1 =>
        rw [hh] at hhl
        exact hhl
      | ok web1 hosts1 pairsNew =>
        rw [hh] at hhl
        simp only []
        by_cases he : hosts1.isEmpty = true
        · rw [if_pos he]
          exact AddFrame_trans hhl (ih (rest ++ pairsNew) web1)
        · rw [if_neg he]
          refine AddFrame_trans (frameOk_trans hhl ?_) (ih (rest ++ pairsNew) _)
          intro x hx
          rcases List.mem_append.mp hx with hx | hx
          · exact Or.inl ⟨x, hx, sameExceptSlot_refl loc x⟩
          · rw [List.mem_singleton] at hx
            subst hx
            exact Or.inr (freshExceptSlot_new loc desc hosts1 ifacesAll)

theorem add_server_frame (reg : Registry) (inst : WebServerInstance)
    (policy : OverwritePolicy) :
    AddFrame inst.location reg.web (Registry.add_server reg inst policy) := by
  unfold Registry.add_server
  by_cases h1 : inst.host.length = 0
  · rw [if_pos h1]; exact frameOk_refl _ _
  · rw [if_neg h1]
    by_cases h2 : inst.interface.length = 0
    · rw [if_pos h2]; exact frameOk_refl _ _
    · rw [if_neg h2]
      exact pairsLoop_frame policy inst.location inst.descriptor _ _ _

/-- Claim C10: frame property of a successful add.  Every group after
the call either descends from a group of the registry before the call
with every path entry other than the request's target slot mapped to
the same backend reference (and, when the request names a path, an
unchanged default backend; when it names no path, an unchanged path
table), or is a freshly created group holding nothing at any other
slot. -/
theorem C10_frame_property (reg : Registry) (inst : WebServerInstance)
    (policy : OverwritePolicy) (web1 : List WebServer)
    (hok : Registry.add_server reg inst policy = .ok web1) :
    ∀ g1 ∈ web1,
      (∃ g0 ∈ reg.web, sameExceptSlot inst.location g0 g1) ∨
        freshExceptSlot inst.location g1 := by
  have hf := add_server_frame reg inst policy
  rw [hok] at hf
  exact hf

/-- Witness for C10 at a concrete input: registering host1 at path
"/test" on a two-host group splits it; the narrowed group descends from
the original with only the "/test" entry changed. -/
theorem C10_frame_property_witness :
    (∃ g0 ∈ [WebServer.mk ["host1", "host2"] [⟨80, .http⟩] [("/a", 5)] (some 1)],
        sameExceptSlot (some "/test") g0
          ⟨["host1"], [⟨80, .http⟩], [("/a", 5), ("/test", 2)], some 1⟩) ∨
      freshExceptSlot (some "/test")
        ⟨["host1"], [⟨80, .http⟩], [("/a", 5), ("/test", 2)], some 1⟩ :=
  C10_frame_property ⟨[⟨["host1", "host2"], [⟨80, .http⟩], [("/a", 5)], some 1⟩]⟩
    ⟨["host1"], [⟨80, .http⟩], some "/test", 2⟩ .error
    [⟨["host1"], [⟨80, .http⟩], [("/a", 5), ("/test", 2)], some 1⟩,
     ⟨["host2"], [⟨80, .http⟩], [("/a", 5)], some 1⟩]
    (by decide) ⟨["host1"], [⟨80, .http⟩], [("/a", 5), ("/test", 2)], some 1⟩ (by decide)

end Awsl

namespace Awsl

/-! ### Union membership helpers -/

theorem hostIn_cons {g : WebServer} {w : List WebServer} {x : String} :
    hostIn (g :: w) x ↔ x ∈ g.host ∨ hostIn w x := by
  constructor
  · rintro ⟨g1, hg1, hx⟩
    rcases List.mem_cons.mp hg1 with rfl | h
    · exact Or.inl hx
    · exact Or.inr ⟨g1, h, hx⟩
  · rintro (hx | ⟨g1, h, hx⟩)
    · exact ⟨g, List.mem_cons_self _ _, hx⟩
    · exact ⟨g1, List.mem_cons_of_mem _ h, hx⟩

theorem hostIn_append {w1 w2 : List WebServer} {x : String} :
    hostIn (w1 ++ w2) x ↔ hostIn w1 x ∨ hostIn w2 x := by
  constructor
  · rintro ⟨g, hg, hx⟩
    rcases List.mem_append.mp hg with h | h
    · exact Or.inl ⟨g, h, hx⟩
    · exact Or.inr ⟨g, h, hx⟩
  · rintro (⟨g, hg, hx⟩ | ⟨g, hg, hx⟩)
    · exact ⟨g, List.mem_append_left _ hg, hx⟩
    · exact ⟨g, List.mem_append_right _ hg, hx⟩

theorem hostIn_nil {x : String} : ¬ hostIn [] x := by
  rintro ⟨g, hg, _⟩
  exact absurd hg (List.not_mem_nil g)

theorem ifaceIn_cons {g : WebServer} {w : List WebServer} {v : ServerInterface} :
    ifaceIn (g :: w) v ↔ v ∈ g.interface ∨ ifaceIn w v := by
  constructor
  · rintro ⟨g1, hg1, hx⟩
    rcases List.mem_cons.mp hg1 with rfl | h
    · exact Or.inl hx
    · exact Or.inr ⟨g1, h, hx⟩
  · rintro (hx | ⟨g1, h, hx⟩)
    · exact ⟨g, List.mem_cons_self _ _, hx⟩
    · exact ⟨g1, List.mem_cons_of_mem _ h, hx⟩

theorem ifaceIn_append {w1 w2 : List WebServer} {v : ServerInterface} :
    ifaceIn (w1 ++ w2) v ↔ ifaceIn w1 v ∨ ifaceIn w2 v := by
  constructor
  · rintro ⟨g, hg, hx⟩
    rcases List.mem_append.mp hg with h | h
    · exact Or.inl ⟨g, h, hx⟩
    · exact Or.inr ⟨g, h, hx⟩
  · rintro (⟨g, hg, hx⟩ | ⟨g, hg, hx⟩)
    · exact ⟨g, List.mem_append_left _ hg, hx⟩
    · exact ⟨g, List.mem_append_right _ hg, hx⟩

theorem ifaceIn_nil {v : ServerInterface} : ¬ ifaceIn [] v := by
  rintro ⟨g, hg, _⟩
  exact absurd hg (List.not_mem_nil g)

theorem hostIn_singleton {g : WebServer} {x : String} :
    hostIn [g] x ↔ x ∈ g.host := by
  rw [hostIn_cons]
  simp [hostIn_nil]

theorem ifaceIn_singleton {g : WebServer} {v : ServerInterface} :
    ifaceIn [g] v ↔ v ∈ g.interface := by
  rw [ifaceIn_cons]
  simp [ifaceIn_nil]

theorem pairsHostIn_cons {p : Pair} {ps : List Pair} {x : String} :
    pairsHostIn (p :: ps) x ↔ x ∈ p.1 ∨ pairsHostIn ps x := by
  constructor
  · rintro ⟨q, hq, hx⟩
    rcases List.mem_cons.mp hq with rfl | h
    · exact Or.inl hx
    · exact Or.inr ⟨q, h, hx⟩
  · rintro (hx | ⟨q, h, hx⟩)
    · exact ⟨p, List.mem_cons_self _ _, hx⟩
    · exact ⟨q, List.mem_cons_of_mem _ h, hx⟩

theorem pairsHostIn_append {p1 p2 : List Pair} {x : String} :
    pairsHostIn (p1 ++ p2) x ↔ pairsHostIn p1 x ∨ pairsHostIn p2 x := by
  constructor
  · rintro ⟨q, hq, hx⟩
    rcases List.mem_append.mp hq with h | h
    · exact Or.inl ⟨q, h, hx⟩
    · exact Or.inr ⟨q, h, hx⟩
  · rintro (⟨q, hq, hx⟩ | ⟨q, hq, hx⟩)
    · exact ⟨q, List.mem_append_left _ hq, hx⟩
    · exact ⟨q, List.mem_append_right _ hq, hx⟩

theorem pairsHostIn_nil {x : String} : ¬ pairsHostIn [] x := by
  rintro ⟨q, hq, _⟩
  exact absurd hq (List.not_mem_nil q)

theorem pairsIfaceIn_cons {p : Pair} {ps : List Pair} {v : ServerInterface} :
    pairsIfaceIn (p :: ps) v ↔ v ∈ p.2 ∨ pairsIfaceIn ps v := by
  constructor
  · rintro ⟨q, hq, hx⟩
    rcases List.mem_cons.mp hq with rfl | h
    · exact Or.inl hx
    · exact Or.inr ⟨q, h, hx⟩
  · rintro (hx | ⟨q, h, hx⟩)
    · exact ⟨p, List.mem_cons_self _ _, hx⟩
    · exact ⟨q, List.mem_cons_of_mem _ h, hx⟩

theorem pairsIfaceIn_append {p1 p2 : List Pair} {v : ServerInterface} :
    pairsIfaceIn (p1 ++ p2) v ↔ pairsIfaceIn p1 v ∨ pairsIfaceIn p2 v := by
  constructor
  · rintro ⟨q, hq, hx⟩
    rcases List.mem_append.mp hq with h | h
    · exact Or.inl ⟨q, h, hx⟩
    · exact Or.inr ⟨q, h, hx⟩
  · rintro (⟨q, hq, hx⟩ | ⟨q, hq, hx⟩)
    · exact ⟨q, List.mem_append_left _ hq, hx⟩
    · exact ⟨q, List.mem_append_right _ hq, hx⟩

theorem pairsIfaceIn_nil {v : ServerInterface} : ¬ pairsIfaceIn [] v := by
  rintro ⟨q, hq, _⟩
  exact absurd hq (List.not_mem_nil q)

/-- Partition of a filtered list: every element is kept by exactly one
of the two complementary filters. -/
theorem filter_partition_mem {α : Type} [DecidableEq α] (l L : List α) (x : α) :
    x ∈ l ↔ x ∈ l.filter (fun v => decide (v ∈ L))
      ∨ x ∈ l.filter (fun v => !decide (v ∈ L)) := by
  by_cases hm : x ∈ L <;> simp [List.mem_filter, hm]

theorem filter_partition_length {α : Type} (p : α → Bool) (l : List α) :
    (l.filter p).length + (l.filter (fun v => !p v)).length = l.length := by
  induction l with
  | nil => rfl
  | cons a t ih =>
    by_cases hp : p a = true <;> simp [List.filter_cons, hp] <;> omega

/-- The known/other interface classification covers the group's
interfaces. -/
theorem known_other_iface_mem (ifaces gI : List ServerInterface) (v : ServerInterface) :
    v ∈ gI ↔ v ∈ ifaces.filter (fun v => decide (v ∈ gI))
      ∨ v ∈ gI.filter (fun v =>
          !decide (v ∈ ifaces.filter (fun v => decide (v ∈ gI)))) := by
  constructor
  · intro hv
    by_cases hk : v ∈ ifaces.filter (fun v => decide (v ∈ gI))
    · exact Or.inl hk
    · exact Or.inr (List.mem_filter.mpr ⟨hv, by simp [hk]⟩)
  · rintro (hv | hv)
    · exact (List.mem_filter.mp hv).2 |> of_decide_eq_true
    · exact (List.mem_filter.mp hv).1

end Awsl


namespace Awsl

/-! ### Propositional skeletons for the union bookkeeping -/

theorem or_shuffle_frame {P A1 A2 A3 B1 B2 B3 : Prop}
    (h : (A1 ∨ A2) ∨ A3 ↔ (B1 ∨ B2) ∨ B3) :
    (P ∨ A1 ∨ A2) ∨ A3 ↔ (P ∨ B1 ∨ B2) ∨ B3 := by tauto

theorem or_shuffle_skip {P3 P4 P5 P6 P8 P9 P10 P12 P13 : Prop}
    (A1 : (P4 ∨ P5) ∨ P9 ↔ (P6 ∨ P8) ∨ (P12 ∨ P10))
    (hsm : P13 ↔ P10 ∨ P12) :
    (P3 ∨ P4 ∨ P5) ∨ P9 ↔ (P3 ∨ P6 ∨ P8) ∨ P13 := by tauto

theorem or_shuffle_pass_host {P1 P2 P3 P4 P5 P6 P7 P8 P9 P10 P11 P12 P13 : Prop}
    (A1 : (P4 ∨ P5) ∨ P9 ↔ (P6 ∨ P7) ∨ P12)
    (F1x : P2 ∨ P7 ↔ P3 ∨ P8)
    (hg1x : P1 ↔ P2)
    (hgh : P3 ↔ P10 ∨ P11)
    (hsm : P13 ↔ P10 ∨ P12) :
    (P1 ∨ P4 ∨ P5) ∨ P9 ↔ (P3 ∨ P6 ∨ P8) ∨ P13 := by itauto

theorem or_shuffle_pass_iface {Q1 Q2 Q3 Q4 Q5 Q6 Q7 Q8 Qi1 Qif : Prop}
    (B1 : (Q4 ∨ Q5) ∨ Qi1 ↔ (Q6 ∨ Q7) ∨ Qif)
    (F2v : Q2 ∨ Q7 ↔ Q3 ∨ Q8)
    (hg1v : Q1 ↔ Q2) :
    (Q1 ∨ Q4 ∨ Q5) ∨ Qi1 ↔ (Q3 ∨ Q6 ∨ Q8) ∨ Qif := by tauto

theorem or_shuffle_pass_iface_unknown {Q1 Q2 Q3 Q4 Q5 Q6 Q7 Q8 Qi1 Qif QKI QU : Prop}
    (B1 : (Q4 ∨ Q5) ∨ Qi1 ↔ (Q6 ∨ Q7) ∨ QU)
    (F2v : Q2 ∨ Q7 ↔ Q3 ∨ Q8)
    (hg1v : Q1 ↔ Q2)
    (F3v : QKI → Q2)
    (hpart : Qif ↔ QKI ∨ QU) :
    (Q1 ∨ Q4 ∨ Q5) ∨ Qi1 ↔ (Q3 ∨ Q6 ∨ Q8) ∨ Qif := by itauto

end Awsl

namespace Awsl

set_option maxHeartbeats 1600000 in
/-- Union bookkeeping of one group scan: no host or interface is
gained or lost (they only move between the pair and the groups), the
pair's host list never grows, the working interface set only strictly
shrinks (and only together with a strict host consumption), and a scan
that consumes hosts without changing the working interface set has
placed every working interface in the scanned groups. -/
theorem scanGroups_union (policy : OverwritePolicy) (loc : Option String)
    (desc : Backend) (host : String) (web : List WebServer) :
    ∀ (hosts : List String) (ifaces : List ServerInterface) (buf : List WebServer)
      (web1 : List WebServer) (hosts1 : List String) (ifaces1 : List ServerInterface)
      (buf1 : List WebServer),
      scanGroups policy loc desc host web hosts ifaces buf = .ok web1 hosts1 ifaces1 buf1 →
      ((∀ x, (hostIn (web1 ++ buf1) x ∨ x ∈ hosts1) ↔ (hostIn (web ++ buf) x ∨ x ∈ hosts)) ∧
       (∀ v, (ifaceIn (web1 ++ buf1) v ∨ v ∈ ifaces1) ↔ (ifaceIn (web ++ buf) v ∨ v ∈ ifaces)) ∧
       hosts1.length ≤ hosts.length ∧
       (ifaces1 = ifaces ∨ (ifaces1.length < ifaces.length ∧ hosts1.length < hosts.length)) ∧
       ((ifaces1 = ifaces ∧ hosts1.length < hosts.length) →
         ∀ v ∈ ifaces, ifaceIn (web1 ++ buf1) v)) := by
  induction web with
  | nil =>
    intro hosts ifaces buf web1 hosts1 ifaces1 buf1 heq
    cases heq
    refine ⟨fun x => Iff.rfl, fun v => Iff.rfl, le_refl _, Or.inl rfl, ?_⟩
    rintro ⟨_, hlt⟩
    exact absurd hlt (lt_irrefl _)
  | cons g rest ih =>
    intro hosts ifaces buf web1 hosts1 ifaces1 buf1 heq
    rw [scanGroups] at heq
    by_cases hmem : host ∈ g.host
    · rw [if_pos hmem] at heq
      simp only [] at heq
      by_cases hskip : ((splitHosts g.host hosts).1.isEmpty
          || (ifaces.filter (fun v => decide (v ∈ g.interface))).isEmpty) = true
      · rw [if_pos hskip] at heq
        cases hs : scanGroups policy loc desc host rest
            ((splitHosts g.host hosts).2.2 ++ (splitHosts g.host hosts).1) ifaces buf with
        | fail e w => rw [hs] at heq; cases heq
        | ok w h1 i1 b1 =>
          rw [hs] at heq
          cases heq
          obtain ⟨A, B, C, D, E⟩ := ih _ _ _ _ _ _ _ hs
          have hlen := splitHosts_length g.host hosts
          have hRK : ((splitHosts g.host hosts).2.2 ++ (splitHosts g.host hosts).1).length
              = hosts.length := by
            rw [List.length_append]; omega
          refine ⟨?_, ?_, ?_, ?_, ?_⟩
          · intro x
            have A1 := A x
            have hsm := splitHosts_hs_mem g.host hosts x
            simp only [List.cons_append, hostIn_cons, hostIn_append, List.mem_append]
              at A1 ⊢
            exact or_shuffle_skip A1 hsm
          · intro v
            have B1 := B v
            simp only [List.cons_append, ifaceIn_cons, ifaceIn_append] at B1 ⊢
            exact or_shuffle_frame B1
          · omega
          · rcases D with hD | hD
            · exact Or.inl hD
            · exact Or.inr ⟨hD.1, by omega⟩
          · rintro ⟨h1eq, hlt⟩ v hv
            have hE := E ⟨h1eq, by omega⟩ v hv
            simp only [List.cons_append, ifaceIn_cons, ifaceIn_append] at hE ⊢
            tauto
      · rw [if_neg hskip] at heq
        have hsf := Bool.or_eq_false_iff.mp (eq_false_of_ne_true hskip)
        have hK : (splitHosts g.host hosts).1 ≠ [] := List.isEmpty_eq_false.mp hsf.1
        have hKI : ifaces.filter (fun v => decide (v ∈ g.interface)) ≠ [] :=
          List.isEmpty_eq_false.mp hsf.2
        obtain ⟨gb, bufb, hX, F1, F2, F3⟩ :
            ∃ gb bufb,
              ifaceSplitStep
                  (hostSplitStep g (splitHosts g.host hosts).1
                    (splitHosts g.host hosts).2.1 buf).1
                  (ifaces.filter (fun v => decide (v ∈ g.interface)))
                  (g.interface.filter (fun v =>
                    !decide (v ∈ ifaces.filter (fun v => decide (v ∈ g.interface)))))
                  (hostSplitStep g (splitHosts g.host hosts).1
                    (splitHosts g.host hosts).2.1 buf).2
                = (gb, bufb) ∧
              (∀ x, (x ∈ gb.host ∨ hostIn bufb x) ↔ (x ∈ g.host ∨ hostIn buf x)) ∧
              (∀ v, (v ∈ gb.interface ∨ ifaceIn bufb v)
                ↔ (v ∈ g.interface ∨ ifaceIn buf v)) ∧
              (∀ v ∈ ifaces.filter (fun v => decide (v ∈ g.interface)),
                v ∈ gb.interface) := by
          obtain ⟨ga, bufa, hp1, G1, G2, G3⟩ :
              ∃ ga bufa,
                hostSplitStep g (splitHosts g.host hosts).1
                  (splitHosts g.host hosts).2.1 buf = (ga, bufa) ∧
                (∀ x, (x ∈ ga.host ∨ hostIn bufa x) ↔ (x ∈ g.host ∨ hostIn buf x)) ∧
                ga.interface = g.interface ∧
                (∀ v, (v ∈ g.interface ∨ ifaceIn bufa v)
                  ↔ (v ∈ g.interface ∨ ifaceIn buf v)) := by
            rcases hostSplitStep_cases g (splitHosts g.host hosts).1
                (splitHosts g.host hosts).2.1 buf with ⟨_, hp1⟩ | ⟨_, hp1⟩
            · exact ⟨g, buf, hp1, fun x => Iff.rfl, rfl, fun v => Iff.rfl⟩
            · refine ⟨_, _, hp1, ?_, rfl, ?_⟩
              · intro x
                have hgh := splitHosts_gh_mem g.host hosts x
                simp only [hostIn_append, hostIn_singleton]
                tauto
              · intro v
                simp only [ifaceIn_append, ifaceIn_singleton]
                tauto
          rw [hp1]
          rcases ifaceSplitStep_cases ga
              (ifaces.filter (fun v => decide (v ∈ g.interface)))
              (g.interface.filter (fun v =>
                !decide (v ∈ ifaces.filter (fun v => decide (v ∈ g.interface))))) bufa
            with ⟨_, hp2⟩ | ⟨_, hp2⟩
          · refine ⟨ga, bufa, hp2, G1, ?_, ?_⟩
            · intro v
              rw [G2]
              exact G3 v
            · intro v hv
              rw [G2]
              exact (List.mem_filter.mp hv).2 |> of_decide_eq_true
          · refine ⟨_, _, hp2, ?_, ?_, ?_⟩
            · intro x
              have G1x := G1 x
              simp only [hostIn_append, hostIn_singleton]
              tauto
            · intro v
              have hko := known_other_iface_mem ifaces g.interface v
              have G3v := G3 v
              simp only [ifaceIn_append, ifaceIn_singleton]
              tauto
            · intro v hv
              exact hv
        simp only [hX] at heq
        cases happ : applySlot policy loc desc gb with
        | fail e g1 => rw [happ] at heq; cases heq
        | ok g1 =>
          rw [happ] at heq
          simp only [] at heq
          have hg1h : ∀ x, x ∈ g1.host ↔ x ∈ gb.host := by
            intro x; rw [applySlot_ok_host happ]
          have hg1i : ∀ v, v ∈ g1.interface ↔ v ∈ gb.interface := by
            intro v; rw [applySlot_ok_interface happ]
          have hlen := splitHosts_length g.host hosts
          have hKlen : 1 ≤ (splitHosts g.host hosts).1.length :=
            List.length_pos.mpr hK
          have hKIlen : 1 ≤ (ifaces.filter (fun v => decide (v ∈ g.interface))).length :=
            List.length_pos.mpr hKI
          have hUlen := filter_partition_length
            (fun v => decide (v ∈ g.interface)) ifaces
          by_cases hu : (ifaces.filter (fun v => !decide (v ∈ g.interface))).isEmpty = true
          · rw [if_pos hu] at heq
            have hUnil : ifaces.filter (fun v => !decide (v ∈ g.interface)) = [] :=
              List.isEmpty_iff.mp hu
            cases hs : scanGroups policy loc desc host rest
                (splitHosts g.host hosts).2.2 ifaces bufb with
            | fail e w => rw [hs] at heq; cases heq
            | ok w h1 i1 b1 =>
              rw [hs] at heq
              cases heq
              obtain ⟨A, B, C, D, E⟩ := ih _ _ _ _ _ _ _ hs
              refine ⟨?_, ?_, ?_, ?_, ?_⟩
              · intro x
                have A1 := A x
                have F1x := F1 x
                have hg1x := hg1h x
                have hgh := splitHosts_gh_mem g.host hosts x
                have hsm := splitHosts_hs_mem g.host hosts x
                simp only [List.cons_append, hostIn_cons, hostIn_append] at A1 ⊢
                exact or_shuffle_pass_host A1 F1x hg1x hgh hsm
              · intro v
                have B1 := B v
                have F2v := F2 v
                have hg1v := hg1i v
                simp only [List.cons_append, ifaceIn_cons, ifaceIn_append] at B1 ⊢
                exact or_shuffle_pass_iface B1 F2v hg1v
              · omega
              · rcases D with hD | hD
                · exact Or.inl hD
                · exact Or.inr ⟨hD.1, by omega⟩
              · rintro ⟨h1eq, _⟩ v hv
                have hvKI : v ∈ ifaces.filter (fun v => decide (v ∈ g.interface)) := by
                  have hpart := filter_partition_mem ifaces g.interface v
                  rw [hUnil] at hpart
                  rcases hpart.mp hv with h | h
                  · exact h
                  · cases h
                have hvg1 : v ∈ g1.interface := (hg1i v).mpr (F3 v hvKI)
                simp only [List.cons_append, ifaceIn_cons, ifaceIn_append]
                exact Or.inl hvg1
          · rw [if_neg hu] at heq
            have hUne : ifaces.filter (fun v => !decide (v ∈ g.interface)) ≠ [] :=
              List.isEmpty_eq_false.mp (eq_false_of_ne_true hu)
            have hUlen1 : 1 ≤ (ifaces.filter (fun v => !decide (v ∈ g.interface))).length :=
              List.length_pos.mpr hUne
            cases hs : scanGroups policy loc desc host rest
                (splitHosts g.host hosts).2.2
                (ifaces.filter (fun v => !decide (v ∈ g.interface))) bufb with
            | fail e w => rw [hs] at heq; cases heq
            | ok w h1 i1 b1 =>
              rw [hs] at heq
              cases heq
              obtain ⟨A, B, C, D, E⟩ := ih _ _ _ _ _ _ _ hs
              refine ⟨?_, ?_, ?_, ?_, ?_⟩
              · intro x
                have A1 := A x
                have F1x := F1 x
                have hg1x := hg1h x
                have hgh := splitHosts_gh_mem g.host hosts x
                have hsm := splitHosts_hs_mem g.host hosts x
                simp only [List.cons_append, hostIn_cons, hostIn_append] at A1 ⊢
                exact or_shuffle_pass_host A1 F1x hg1x hgh hsm
              · intro v
                have B1 := B v
                have F2v := F2 v
                have hg1v := hg1i v
                have F3v := F3 v
                have hpart := filter_partition_mem ifaces g.interface v
                simp only [List.cons_append, ifaceIn_cons, ifaceIn_append] at B1 ⊢
                exact or_shuffle_pass_iface_unknown B1 F2v hg1v F3v hpart
              · omega
              · refine Or.inr ⟨?_, ?_⟩
                · rcases D with hD | hD
                  · rw [hD]; omega
                  · omega
                · omega
              · rintro ⟨h1eq, _⟩
                exfalso
                rcases D with hD | hD
                · have hveq := congrArg List.length hD
                  rw [h1eq] at hveq
                  omega
                · rw [h1eq] at hD; omega
    · rw [if_neg hmem] at heq
      cases hs : scanGroups policy loc desc host rest hosts ifaces buf with
      | fail e w => rw [hs] at heq; cases heq
      | ok w h1 i1 b1 =>
        rw [hs] at heq
        cases heq
        obtain ⟨A, B, C, D, E⟩ := ih _ _ _ _ _ _ _ hs
        refine ⟨?_, ?_, C, D, ?_⟩
        · intro x
          have A1 := A x
          simp only [List.cons_append, hostIn_cons, hostIn_append] at A1 ⊢
          exact or_shuffle_frame A1
        · intro v
          have B1 := B v
          simp only [List.cons_append, ifaceIn_cons, ifaceIn_append] at B1 ⊢
          exact or_shuffle_frame B1
        · intro h v hv
          have hE := E h v hv
          simp only [List.cons_append, ifaceIn_cons, ifaceIn_append] at hE ⊢
          tauto

end Awsl

namespace Awsl

theorem pairsHostIn_singleton {p : Pair} {x : String} :
    pairsHostIn [p] x ↔ x ∈ p.1 := by
  rw [pairsHostIn_cons]
  simp [pairsHostIn_nil]

theorem pairsIfaceIn_singleton {p : Pair} {v : ServerInterface} :
    pairsIfaceIn [p] v ↔ v ∈ p.2 := by
  rw [pairsIfaceIn_cons]
  simp [pairsIfaceIn_nil]

theorem or_shuffle_push {L W2 Hp NP1 W H NP PH : Prop}
    (recA : L ↔ W2 ∨ Hp ∨ NP1)
    (scanA : W2 ∨ Hp ↔ W ∨ H)
    (npsplit : NP1 ↔ NP ∨ PH)
    (hPH : PH → H) :
    L ↔ W ∨ H ∨ NP := by itauto

theorem or_shuffle_push_iface {L WI2 NP1 VIp WI VI Hnep NP Hne : Prop}
    (recB : L ↔ WI2 ∨ (Hnep ∧ VI) ∨ NP1)
    (scanB : WI2 ∨ VIp ↔ WI ∨ VI)
    (npsplit : NP1 ↔ NP ∨ VIp)
    (hHne : Hne) :
    L ↔ WI ∨ (Hne ∧ VI) ∨ NP := by itauto

theorem or_shuffle_preserve {L W2 Hp W H NP : Prop}
    (recA : L ↔ W2 ∨ Hp ∨ NP)
    (scanA : W2 ∨ Hp ↔ W ∨ H) :
    L ↔ W ∨ H ∨ NP := by itauto

theorem or_shuffle_preserve_iface_full {L WI2 VI NPI WI Hnep Hne : Prop}
    (recB : L ↔ WI2 ∨ (Hnep ∧ VI) ∨ NPI)
    (scanB : WI2 ∨ VI ↔ WI ∨ VI)
    (hE : ¬ Hnep → (VI → WI2))
    (hHne : Hne)
    (hdec : Hnep ∨ ¬ Hnep) :
    L ↔ WI ∨ (Hne ∧ VI) ∨ NPI := by itauto

theorem or_shuffle_preserve_iface_empty {L WI2 VI NPI WI Hnep Hne : Prop}
    (recB : L ↔ WI2 ∨ (Hnep ∧ VI) ∨ NPI)
    (scanB : WI2 ↔ WI ∨ VI)
    (hHne : Hne) :
    L ↔ WI ∨ (Hne ∧ VI) ∨ NPI := by itauto

end Awsl

namespace Awsl

theorem getD_mem {l : List String} {i : Nat} (h : i < l.length) : l.getD i "" ∈ l := by
  induction l generalizing i with
  | nil => simp at h
  | cons a t ihl =>
    cases i with
    | zero => simp
    | succ j =>
      simp only [List.getD_cons_succ]
      exact List.mem_cons_of_mem a (ihl (by simpa using h))

/-- Union bookkeeping of the per-pair host loop: hosts and interfaces
move between the registry, the remaining host list and the spawned
pairs, but none is gained or lost; spawned pairs carry non-empty host
lists. -/
theorem hostLoop_union (policy : OverwritePolicy) (loc : Option String)
    (desc : Backend) (ifacesAll : List ServerInterface) :
    ∀ (fuel i : Nat) (hosts : List String) (web : List WebServer) (np : List Pair)
      (web1 : List WebServer) (hosts1 : List String) (np1 : List Pair),
      hostLoop policy loc desc ifacesAll fuel i hosts web np = .ok web1 hosts1 np1 →
      ((∀ x, (hostIn web1 x ∨ x ∈ hosts1 ∨ pairsHostIn np1 x)
          ↔ (hostIn web x ∨ x ∈ hosts ∨ pairsHostIn np x)) ∧
       (∀ v, (ifaceIn web1 v ∨ (hosts1 ≠ [] ∧ v ∈ ifacesAll) ∨ pairsIfaceIn np1 v)
          ↔ (ifaceIn web v ∨ (hosts ≠ [] ∧ v ∈ ifacesAll) ∨ pairsIfaceIn np v)) ∧
       ((∀ p ∈ np, p.1 ≠ []) → ∀ p ∈ np1, p.1 ≠ [])) := by
  intro fuel
  induction fuel with
  | zero =>
    intro i hosts web np web1 hosts1 np1 heq
    by_cases h : i < hosts.length
    · rw [hostLoop_out _ _ _ _ _ _ _ _ h] at heq; cases heq
    · rw [hostLoop_stop _ _ _ _ _ _ _ _ _ h] at heq
      cases heq
      exact ⟨fun x => Iff.rfl, fun v => Iff.rfl, fun hnp => hnp⟩
  | succ fuel ih =>
    intro i hosts web np web1 hosts1 np1 heq
    by_cases h : i < hosts.length
    · rw [hostLoop_step _ _ _ _ _ _ _ _ _ h] at heq
      have hhne : hosts ≠ [] := by
        intro hn
        rw [hn] at h
        simp at h
      cases hs : scanGroups policy loc desc (hosts.getD i "") web hosts ifacesAll [] with
      | fail e w => rw [hs] at heq; cases heq
      | ok w2 hosts2 ifaces2 buf =>
        rw [hs] at heq
        simp only [] at heq
        obtain ⟨SA, SB, SC, SD, SE⟩ := scanGroups_union policy loc desc
          (hosts.getD i "") web hosts ifacesAll [] w2 hosts2 ifaces2 buf hs
        simp only [List.append_nil] at SA SB SE
        by_cases hpush : 0 < ifaces2.length ∧ ifaces2.length ≠ ifacesAll.length
        · rw [if_pos hpush] at heq
          obtain ⟨A, B, C⟩ := ih i hosts2 (w2 ++ buf)
            (np ++ [([hosts.getD i ""], ifaces2)]) web1 hosts1 np1 heq
          refine ⟨?_, ?_, ?_⟩
          · intro x
            have npsplit : pairsHostIn (np ++ [([hosts.getD i ""], ifaces2)]) x
                ↔ pairsHostIn np x ∨ x ∈ [hosts.getD i ""] := by
              rw [pairsHostIn_append, pairsHostIn_singleton]
            have hPH : x ∈ [hosts.getD i ""] → x ∈ hosts := by
              intro hx
              rw [List.mem_singleton] at hx
              subst hx
              exact getD_mem h
            exact or_shuffle_push (A x) (SA x) npsplit hPH
          · intro v
            have npsplit : pairsIfaceIn (np ++ [([hosts.getD i ""], ifaces2)]) v
                ↔ pairsIfaceIn np v ∨ v ∈ ifaces2 := by
              rw [pairsIfaceIn_append, pairsIfaceIn_singleton]
            exact or_shuffle_push_iface (B v) (SB v) npsplit hhne
          · intro hnp
            refine C ?_
            intro p hp
            rcases List.mem_append.mp hp with hp | hp
            · exact hnp p hp
            · rw [List.mem_singleton] at hp
              subst hp
              simp
        · rw [if_neg hpush] at heq
          obtain ⟨A, B, C⟩ := ih (i + 1) hosts2 (w2 ++ buf) np web1 hosts1 np1 heq
          have hcase : ifaces2 = [] ∨ ifaces2 = ifacesAll := by
            by_cases h0 : ifaces2.length = 0
            · exact Or.inl (List.length_eq_zero.mp h0)
            · have hlen2 : ifaces2.length = ifacesAll.length := by
                by_contra hne2
                exact hpush ⟨Nat.pos_of_ne_zero h0, hne2⟩
              rcases SD with hD | hD
              · exact Or.inr hD
              · omega
          refine ⟨?_, ?_, C⟩
          · intro x
            exact or_shuffle_preserve (A x) (SA x)
          · intro v
            rcases hcase with hc | hc
            · have scanB : ifaceIn (w2 ++ buf) v ↔ (ifaceIn web v ∨ v ∈ ifacesAll) := by
                have hSB := SB v
                rw [hc] at hSB
                simpa using hSB
              exact or_shuffle_preserve_iface_empty (B v) scanB hhne
            · have scanB : (ifaceIn (w2 ++ buf) v ∨ v ∈ ifacesAll)
                  ↔ (ifaceIn web v ∨ v ∈ ifacesAll) := by
                have hSB := SB v
                rw [hc] at hSB
                exact hSB
              have hE : ¬ (hosts2 ≠ []) → (v ∈ ifacesAll → ifaceIn (w2 ++ buf) v) := by
                intro hn hv
                have hn2 : hosts2 = [] := not_not.mp hn
                refine SE ⟨hc, ?_⟩ v hv
                rw [hn2]
                simpa using List.length_pos.mpr hhne
              exact or_shuffle_preserve_iface_full (B v) scanB hE hhne (em _)
    · rw [hostLoop_stop _ _ _ _ _ _ _ _ _ h] at heq
      cases heq
      exact ⟨fun x => Iff.rfl, fun v => Iff.rfl, fun hnp => hnp⟩

end Awsl

namespace Awsl

theorem newGroup_host (loc : Option String) (desc : Backend) (hosts2 : List String)
    (ifacesAll : List ServerInterface) :
    (match loc with
      | some l =>
        { host := hosts2, interface := ifacesAll,
          subservers := mapInsert l desc [], server := none }
      | none =>
        { host := hosts2, interface := ifacesAll,
          subservers := [], server := some desc } : WebServer).host = hosts2 := by
  cases loc <;> rfl

theorem newGroup_interface (loc : Option String) (desc : Backend) (hosts2 : List String)
    (ifacesAll : List ServerInterface) :
    (match loc with
      | some l =>
        { host := hosts2, interface := ifacesAll,
          subservers := mapInsert l desc [], server := none }
      | none =>
        { host := hosts2, interface := ifacesAll,
          subservers := [], server := some desc } : WebServer).interface = ifacesAll := by
  cases loc <;> rfl

theorem or_shuffle_pairstep_done {W1 W2 NPnew NPrest H Wweb X PN : Prop}
    (recA : W1 ↔ W2 ∨ (NPrest ∨ NPnew))
    (hlA : (W2 ∨ X ∨ NPnew) ↔ (Wweb ∨ H ∨ PN))
    (hX : ¬X) (hPN : ¬PN) :
    W1 ↔ Wweb ∨ (H ∨ NPrest) := by itauto

theorem or_shuffle_pairstep_done_iface {W1 W2 NPnew NPrest VI Wweb Hne2 Hne PN : Prop}
    (recB : W1 ↔ W2 ∨ (NPrest ∨ NPnew))
    (hlB : (W2 ∨ (Hne2 ∧ VI) ∨ NPnew) ↔ (Wweb ∨ (Hne ∧ VI) ∨ PN))
    (hn2 : ¬Hne2) (hn : Hne) (hPN : ¬PN) :
    W1 ↔ Wweb ∨ (VI ∨ NPrest) := by itauto

theorem or_shuffle_pairstep_new {W1 W2 H2 NPnew NPrest H Wweb PN : Prop}
    (recA : W1 ↔ (W2 ∨ H2) ∨ (NPrest ∨ NPnew))
    (hlA : (W2 ∨ H2 ∨ NPnew) ↔ (Wweb ∨ H ∨ PN))
    (hPN : ¬PN) :
    W1 ↔ Wweb ∨ (H ∨ NPrest) := by itauto

theorem or_shuffle_pairstep_new_iface {W1 W2 VI NPnew NPrest Wweb Hne2 Hne PN : Prop}
    (recB : W1 ↔ (W2 ∨ VI) ∨ (NPrest ∨ NPnew))
    (hlB : (W2 ∨ (Hne2 ∧ VI) ∨ NPnew) ↔ (Wweb ∨ (Hne ∧ VI) ∨ PN))
    (hn2 : Hne2) (hn : Hne) (hPN : ¬PN) :
    W1 ↔ Wweb ∨ (VI ∨ NPrest) := by itauto

/-- Union bookkeeping of the worklist loop: for a run that ends
successfully, the hosts (and interfaces) of the final registry are
exactly those of the starting registry together with those of the
worklist pairs. -/
theorem pairsLoop_union (policy : OverwritePolicy) (loc : Option String)
    (desc : Backend) :
    ∀ (fuel : Nat) (pairs : List Pair) (web web1 : List WebServer),
      (∀ p ∈ pairs, p.1 ≠ []) →
      pairsLoop policy loc desc fuel pairs web = .ok web1 →
      ((∀ x, hostIn web1 x ↔ (hostIn web x ∨ pairsHostIn pairs x)) ∧
       (∀ v, ifaceIn web1 v ↔ (ifaceIn web v ∨ pairsIfaceIn pairs v))) := by
  intro fuel
  induction fuel with
  | zero =>
    intro pairs web web1 hp heq
    cases pairs with
    | nil =>
      rw [pairsLoop_nil] at heq
      cases heq
      exact ⟨fun x => (or_iff_left pairsHostIn_nil).symm,
        fun v => (or_iff_left pairsIfaceIn_nil).symm⟩
    | cons p rest => cases heq
  | succ fuel ih =>
    intro pairs web web1 hp heq
    cases pairs with
    | nil =>
      rw [pairsLoop_nil] at heq
      cases heq
      exact ⟨fun x => (or_iff_left pairsHostIn_nil).symm,
        fun v => (or_iff_left pairsIfaceIn_nil).symm⟩
    | cons p rest =>
      obtain ⟨hosts, ifacesAll⟩ := p
      have hhd : hosts ≠ [] := hp (hosts, ifacesAll) (List.mem_cons_self _ _)
      have hrest : ∀ q ∈ rest, q.1 ≠ [] := fun q hq => hp q (List.mem_cons_of_mem _ hq)
      rw [pairsLoop_step] at heq
      cases hh : hostLoop policy loc desc ifacesAll hosts.length 0 hosts web [] with
      | out => rw [hh] at heq; cases heq
      | fail e w => rw [hh] at heq; cases heq
      | ok w2 hosts2 pairsNew =>
        rw [hh] at heq
        simp only [] at heq
        obtain ⟨A, B, C⟩ := hostLoop_union policy loc desc ifacesAll hosts.length 0
          hosts web [] w2 hosts2 pairsNew hh
        have hnp2 : ∀ q ∈ pairsNew, q.1 ≠ [] :=
          C (fun q hq => absurd hq (List.not_mem_nil q))
        have hboth : ∀ q ∈ rest ++ pairsNew, q.1 ≠ [] := by
          intro q hq
          rcases List.mem_append.mp hq with hq | hq
          · exact hrest q hq
          · exact hnp2 q hq
        by_cases he : hosts2.isEmpty = true
        · rw [if_pos he] at heq
          have h2nil : hosts2 = [] := List.isEmpty_iff.mp he
          obtain ⟨RA, RB⟩ := ih (rest ++ pairsNew) w2 web1 hboth heq
          refine ⟨?_, ?_⟩
          · intro x
            have recA : hostIn web1 x ↔
                hostIn w2 x ∨ (pairsHostIn rest x ∨ pairsHostIn pairsNew x) := by
              rw [RA x, pairsHostIn_append]
            rw [pairsHostIn_cons]
            exact or_shuffle_pairstep_done recA (A x)
              (by rw [h2nil]; exact List.not_mem_nil x) pairsHostIn_nil
          · intro v
            have recB : ifaceIn web1 v ↔
                ifaceIn w2 v ∨ (pairsIfaceIn rest v ∨ pairsIfaceIn pairsNew v) := by
              rw [RB v, pairsIfaceIn_append]
            rw [pairsIfaceIn_cons]
            exact or_shuffle_pairstep_done_iface recB (B v)
              (fun hn => hn h2nil) hhd pairsIfaceIn_nil
        · rw [if_neg he] at heq
          have h2ne : hosts2 ≠ [] := by
            intro hn
            rw [hn] at he
            exact he rfl
          obtain ⟨M, heq2, hMhost, hMiface⟩ :
              ∃ M : WebServer,
                pairsLoop policy loc desc fuel (rest ++ pairsNew) (w2 ++ [M]) = .ok web1 ∧
                M.host = hosts2 ∧ M.interface = ifacesAll := by
            cases loc with
            | some l => exact ⟨_, heq, rfl, rfl⟩
            | none => exact ⟨_, heq, rfl, rfl⟩
          obtain ⟨RA, RB⟩ := ih (rest ++ pairsNew) (w2 ++ [M]) web1 hboth heq2
          refine ⟨?_, ?_⟩
          · intro x
            have recA : hostIn web1 x ↔
                (hostIn w2 x ∨ x ∈ hosts2) ∨
                  (pairsHostIn rest x ∨ pairsHostIn pairsNew x) := by
              rw [RA x, pairsHostIn_append, hostIn_append, hostIn_singleton, hMhost]
            rw [pairsHostIn_cons]
            exact or_shuffle_pairstep_new recA (A x) pairsHostIn_nil
          · intro v
            have recB : ifaceIn web1 v ↔
                (ifaceIn w2 v ∨ v ∈ ifacesAll) ∨
                  (pairsIfaceIn rest v ∨ pairsIfaceIn pairsNew v) := by
              rw [RB v, pairsIfaceIn_append, ifaceIn_append, ifaceIn_singleton, hMiface]
            rw [pairsIfaceIn_cons]
            exact or_shuffle_pairstep_new_iface recB (B v) h2ne hhd pairsIfaceIn_nil

end Awsl

namespace Awsl

/-- Claim C2 (amended: restricted to calls that return `Ok` — a failing
call can leave the union unchanged while the request contributes new
hosts, see the counterexample): after a successful `add_server`, a host
occurs in the resulting registry exactly when it occurred before the
call or is one of the request's hosts, and likewise an interface occurs
exactly when it occurred before or is one of the request's
interfaces. -/
theorem C2_union_preservation (reg : Registry) (inst : WebServerInstance)
    (policy : OverwritePolicy) (web1 : List WebServer)
    (hok : Registry.add_server reg inst policy = .ok web1) :
    (∀ x, hostIn web1 x ↔ (hostIn reg.web x ∨ x ∈ inst.host)) ∧
    (∀ v, ifaceIn web1 v ↔ (ifaceIn reg.web v ∨ v ∈ inst.interface)) := by
  unfold Registry.add_server at hok
  by_cases h1 : inst.host.length = 0
  · rw [if_pos h1] at hok; cases hok
  · rw [if_neg h1] at hok
    by_cases h2 : inst.interface.length = 0
    · rw [if_pos h2] at hok; cases hok
    · rw [if_neg h2] at hok
      have hne : inst.host ≠ [] := by
        intro hn
        exact h1 (by rw [hn]; rfl)
      have hpairs : ∀ p ∈ [(inst.host, inst.interface)], p.1 ≠ [] := by
        intro p hp
        rw [List.mem_singleton] at hp
        subst hp
        exact hne
      obtain ⟨RA, RB⟩ := pairsLoop_union policy inst.location inst.descriptor
        (inst.host.length * inst.interface.length + 1)
        [(inst.host, inst.interface)] reg.web web1 hpairs hok
      refine ⟨?_, ?_⟩
      · intro x
        have h := RA x
        rw [pairsHostIn_singleton] at h
        exact h
      · intro v
        have h := RB v
        rw [pairsIfaceIn_singleton] at h
        exact h

theorem C2_union_preservation_witness :
    hostIn [⟨["host1"], [⟨80, .http⟩], [], some 1⟩] "host1" ↔
      (hostIn [] "host1" ∨ "host1" ∈ (["host1"] : List String)) :=
  (C2_union_preservation ⟨[]⟩ ⟨["host1"], [⟨80, .http⟩], none, 1⟩ .error
    [⟨["host1"], [⟨80, .http⟩], [], some 1⟩] (by decide)).1 "host1"

end Awsl

namespace Awsl

theorem pairsPotential_nil : pairsPotential ([] : List Pair) = 0 := rfl

theorem pairsPotential_cons (p : Pair) (ps : List Pair) :
    pairsPotential (p :: ps) = pairCost p + pairsPotential ps := by
  simp [pairsPotential]

theorem pairsPotential_append (p1 p2 : List Pair) :
    pairsPotential (p1 ++ p2) = pairsPotential p1 + pairsPotential p2 := by
  simp [pairsPotential]

/-- The per-pair host loop cannot run out of fuel when given at least
as much fuel as there are unscanned host indices: every push step
consumes at least one host of the working list, every other step
advances the index. -/
theorem hostLoop_no_out (policy : OverwritePolicy) (loc : Option String)
    (desc : Backend) (ifacesAll : List ServerInterface) :
    ∀ (fuel i : Nat) (hosts : List String) (web : List WebServer) (np : List Pair),
      hosts.length - i ≤ fuel →
      hostLoop policy loc desc ifacesAll fuel i hosts web np ≠ .out := by
  intro fuel
  induction fuel with
  | zero =>
    intro i hosts web np hfuel
    have h : ¬ i < hosts.length := by omega
    rw [hostLoop_stop _ _ _ _ _ _ _ _ _ h]
    intro hc
    cases hc
  | succ fuel ih =>
    intro i hosts web np hfuel
    by_cases h : i < hosts.length
    · rw [hostLoop_step _ _ _ _ _ _ _ _ _ h]
      cases hs : scanGroups policy loc desc (hosts.getD i "") web hosts ifacesAll [] with
      | fail e w =>
        intro hc
        cases hc
      | ok w2 hosts2 ifaces2 buf =>
        simp only []
        obtain ⟨SA, SB, SC, SD, SE⟩ := scanGroups_union policy loc desc
          (hosts.getD i "") web hosts ifacesAll [] w2 hosts2 ifaces2 buf hs
        by_cases hpush : 0 < ifaces2.length ∧ ifaces2.length ≠ ifacesAll.length
        · rw [if_pos hpush]
          have hlt : hosts2.length < hosts.length := by
            rcases SD with hD | ⟨_, hlt⟩
            · exact absurd (congrArg List.length hD) hpush.2
            · exact hlt
          exact ih i hosts2 (w2 ++ buf) (np ++ [([hosts.getD i ""], ifaces2)]) (by omega)
        · rw [if_neg hpush]
          exact ih (i + 1) hosts2 (w2 ++ buf) np (by omega)
    · rw [hostLoop_stop _ _ _ _ _ _ _ _ _ h]
      intro hc
      cases hc

/-- Potential bookkeeping of the per-pair host loop: every pushed pair
costs at most the interfaces its consumed host released, so the
worklist potential of the spawned pairs plus the potential of the
remaining working hosts never grows. -/
theorem hostLoop_potential (policy : OverwritePolicy) (loc : Option String)
    (desc : Backend) (ifacesAll : List ServerInterface) :
    ∀ (fuel i : Nat) (hosts : List String) (web : List WebServer) (np : List Pair)
      (web1 : List WebServer) (hosts1 : List String) (np1 : List Pair),
      hostLoop policy loc desc ifacesAll fuel i hosts web np = .ok web1 hosts1 np1 →
      pairsPotential np1 + hosts1.length * ifacesAll.length ≤
        pairsPotential np + hosts.length * ifacesAll.length := by
  intro fuel
  induction fuel with
  | zero =>
    intro i hosts web np web1 hosts1 np1 heq
    by_cases h : i < hosts.length
    · rw [hostLoop_out _ _ _ _ _ _ _ _ h] at heq; cases heq
    · rw [hostLoop_stop _ _ _ _ _ _ _ _ _ h] at heq
      cases heq
      exact le_refl _
  | succ fuel ih =>
    intro i hosts web np web1 hosts1 np1 heq
    by_cases h : i < hosts.length
    · rw [hostLoop_step _ _ _ _ _ _ _ _ _ h] at heq
      cases hs : scanGroups policy loc desc (hosts.getD i "") web hosts ifacesAll [] with
      | fail e w => rw [hs] at heq; cases heq
      | ok w2 hosts2 ifaces2 buf =>
        rw [hs] at heq
        simp only [] at heq
        obtain ⟨SA, SB, SC, SD, SE⟩ := scanGroups_union policy loc desc
          (hosts.getD i "") web hosts ifacesAll [] w2 hosts2 ifaces2 buf hs
        by_cases hpush : 0 < ifaces2.length ∧ ifaces2.length ≠ ifacesAll.length
        · rw [if_pos hpush] at heq
          have hrec := ih i hosts2 (w2 ++ buf) (np ++ [([hosts.getD i ""], ifaces2)])
            web1 hosts1 np1 heq
          have hlt : hosts2.length < hosts.length := by
            rcases SD with hD | ⟨_, hlt⟩
            · exact absurd (congrArg List.length hD) hpush.2
            · exact hlt
          have hilt : ifaces2.length < ifacesAll.length := by
            rcases SD with hD | ⟨hilt, _⟩
            · exact absurd (congrArg List.length hD) hpush.2
            · exact hilt
          have happ : pairsPotential (np ++ [([hosts.getD i ""], ifaces2)]) =
              pairsPotential np + (ifaces2.length + 1) := by
            rw [pairsPotential_append, pairsPotential_cons, pairsPotential_nil]
            simp [pairCost]
          rw [happ] at hrec
          have hmul : hosts2.length * ifacesAll.length + ifacesAll.length ≤
              hosts.length * ifacesAll.length := by
            calc hosts2.length * ifacesAll.length + ifacesAll.length
                = (hosts2.length + 1) * ifacesAll.length := by ring
              _ ≤ hosts.length * ifacesAll.length :=
                  mul_le_mul_right' (Nat.succ_le_of_lt hlt) _
          omega
        · rw [if_neg hpush] at heq
          have hrec := ih (i + 1) hosts2 (w2 ++ buf) np web1 hosts1 np1 heq
          have hmul : hosts2.length * ifacesAll.length ≤
              hosts.length * ifacesAll.length := mul_le_mul_right' SC _
          omega
    · rw [hostLoop_stop _ _ _ _ _ _ _ _ _ h] at heq
      cases heq
      exact le_refl _

/-- The worklist loop cannot run out of fuel when given at least the
worklist potential: processing the front pair spends one fuel unit and
the spawned pairs cost at most the front pair's potential minus one. -/
theorem pairsLoop_no_out (policy : OverwritePolicy) (loc : Option String)
    (desc : Backend) :
    ∀ (fuel : Nat) (pairs : List Pair) (web : List WebServer),
      pairsPotential pairs ≤ fuel →
      pairsLoop policy loc desc fuel pairs web ≠ .out := by
  intro fuel
  induction fuel with
  | zero =>
    intro pairs web hfuel
    cases pairs with
    | nil =>
      rw [pairsLoop_nil]
      intro hc
      cases hc
    | cons p rest =>
      exfalso
      rw [pairsPotential_cons] at hfuel
      have hpos : 0 < pairCost p := Nat.succ_pos _
      omega
  | succ fuel ih =>
    intro pairs web hfuel
    cases pairs with
    | nil =>
      rw [pairsLoop_nil]
      intro hc
      cases hc
    | cons p rest =>
      obtain ⟨hosts, ifacesAll⟩ := p
      rw [pairsLoop_step]
      cases hh : hostLoop policy loc desc ifacesAll hosts.length 0 hosts web [] with
      | out =>
        exact absurd hh (hostLoop_no_out policy loc desc ifacesAll hosts.length 0
          hosts web [] (Nat.sub_le _ _))
      | fail e w1 =>
        intro hc
        cases hc
      | ok w1 hosts1 pairsNew =>
        simp only []
        refine ih (rest ++ pairsNew) _ ?_
        have hpot := hostLoop_potential policy loc desc ifacesAll hosts.length 0
          hosts web [] w1 hosts1 pairsNew hh
        have hz : pairsPotential ([] : List Pair) = 0 := rfl
        rw [hz] at hpot
        rw [pairsPotential_cons] at hfuel
        have hc2 : pairCost (hosts, ifacesAll) =
            hosts.length * ifacesAll.length + 1 := rfl
        rw [hc2] at hfuel
        rw [pairsPotential_append]
        omega

/-- Claim C8: `add_server` always terminates — the fuel
`|hosts| * |interfaces| + 1` given to the worklist loop dominates the
worklist potential (each spawned pair carries a strictly smaller
interface set and a single consumed host), so the embedded loop never
exhausts its fuel and the call returns for every registry state, policy
and request. -/
theorem C8_termination (reg : Registry) (inst : WebServerInstance)
    (policy : OverwritePolicy) :
    Registry.add_server reg inst policy ≠ AddResult.out := by
  unfold Registry.add_server
  by_cases h1 : inst.host.length = 0
  · rw [if_pos h1]
    intro hc
    cases hc
  · rw [if_neg h1]
    by_cases h2 : inst.interface.length = 0
    · rw [if_pos h2]
      intro hc
      cases hc
    · rw [if_neg h2]
      refine pairsLoop_no_out policy inst.location inst.descriptor _ _ reg.web ?_
      exact le_of_eq rfl

end Awsl
